import Mathlib

/-!
# Verification of the Cypher lexer (`py2neo/cypher/reading.py`)

A shallow embedding of the Pygments `RegexLexer` instance `CypherLexer`:
its grammar tables, the rule compiler (`word_list` / `symbol_list`), the
per-state rule lists, the Pygments driver loop (`get_tokens_unprocessed`)
and the statement splitter (`get_statements`).

Regular expressions are embedded as a small syntax tree and matched with
Perl-style (leftmost, greedy, backtracking) semantics, which is what
Python's `re.match` implements; the matcher is written in continuation
passing style with an explicit fuel argument so that it is structurally
recursive and computable by the kernel.  Character classes mirror the
ASCII behaviour of the source's flags `re.IGNORECASE | re.MULTILINE |
re.UNICODE` (case folding and the `\w`, `\s` classes are modelled on
ASCII, which is the fragment exercised by the grammar).
-/

namespace CypherLex

/-- Pygments token types used by the lexer (leaves of the type hierarchy). -/
inductive Tok where
  | keyword
  | punctuation
  | operator
  | commentSingle
  | commentMultiline
  | str
  | nameLabel
  | nameFunction
  | nameVariable
  | nameVariableGlobal
  | nameConstant
  | numberFloat
  | numberInteger
  | whitespace
  | error
  | text
deriving DecidableEq

/-- The named lexing states of `CypherLexer.tokens` (the states that can
appear on the Pygments state stack; `include`d pseudo-states are spliced
into their hosts, as Pygments does at table-compile time). -/
inductive SName where
  | root
  | inParen
  | inBracket
  | inBrace
  | mlComment
deriving DecidableEq

/-- A stack operation of a rule's `new_state` field: `'#pop'`, a state
name to push, or `'#push'` (duplicate the top).  Pygments applies a tuple
of these left to right. -/
inductive StackOp where
  | pop
  | push (s : SName)
  | pushSelf
deriving DecidableEq

/-- Regular-expression syntax tree: single-character predicates, sequence,
ordered alternation, greedy Kleene star, the `\b` word-boundary assertion
and the (multiline) `^` line-start assertion. -/
inductive RE where
  | eps
  | pred (p : Char → Bool)
  | seq (a b : RE)
  | alt (a b : RE)
  | star (a : RE)
  | wb
  | bol

/-- ASCII case folding as `re.IGNORECASE` applies it to literals. -/
def lowerVal (c : Char) : Nat :=
  if 65 ≤ c.toNat ∧ c.toNat ≤ 90 then c.toNat + 32 else c.toNat

/-- Case-insensitive character comparison (`re.IGNORECASE`). -/
def caseEqChar (a b : Char) : Bool :=
  lowerVal a == lowerVal b

/-- A literal string, matched case-insensitively character by character. -/
def litRE (s : List Char) : RE :=
  s.foldr (fun c r => RE.seq (RE.pred (fun x => caseEqChar c x)) r) RE.eps

/-- Greedy `r?`. -/
def optRE (r : RE) : RE := RE.alt r RE.eps

/-- Greedy `r+`. -/
def plusRE (r : RE) : RE := RE.seq r (RE.star r)

/-- The `\s` class (ASCII fragment of Python's unicode whitespace). -/
def isPySpace (c : Char) : Bool :=
  c == ' ' || c == '\t' || c == '\n' || c == '\r' || c == '\x0b' || c == '\x0c'

/-- The `\w` class (ASCII fragment): letters, digits and underscore. -/
def isWordChar (c : Char) : Bool :=
  c.isAlpha || c.isDigit || c == '_'

/-- `\b` holds between the previous character and the front of the
remaining input when exactly one side is a word character. -/
def wbHolds (prev : Option Char) (inp : List Char) : Bool :=
  (match prev with | none => false | some c => isWordChar c)
    != (match inp with | [] => false | c :: _ => isWordChar c)

/-- Multiline `^`: at offset 0 or right after a newline. -/
def bolHolds (prev : Option Char) : Bool :=
  match prev with
  | none => true
  | some c => c == '\n'

/-- Backtracking matcher in continuation-passing style.  `prev` is the
character before the current offset (for `\b` and `^`).  The continuation
receives the remaining input and the new previous character; alternation
and the greedy star try their preferred branch first and fall back when
the continuation fails, which is exactly Python's backtracking search.
The fuel decreases on every recursive call; a star iteration that consumes
nothing is cut off (no pattern of this grammar matches the empty string,
so the cut never fires for these rules, and it makes the search finite). -/
def matchF {α : Type} : Nat → RE → List Char → Option Char →
    (List Char → Option Char → Option α) → Option α
  | 0, _, _, _, _ => none
  | _ + 1, .eps, inp, prev, k => k inp prev
  | _ + 1, .pred p, inp, _, k =>
    match inp with
    | [] => none
    | c :: rest => if p c then k rest (some c) else none
  | n + 1, .seq a b, inp, prev, k =>
    matchF n a inp prev (fun rest p => matchF n b rest p k)
  | n + 1, .alt a b, inp, prev, k =>
    match matchF n a inp prev k with
    | some v => some v
    | none => matchF n b inp prev k
  | n + 1, .star r, inp, prev, k =>
    match matchF n r inp prev (fun rest p =>
        if rest.length < inp.length then matchF n (.star r) rest p k else none) with
    | some v => some v
    | none => k inp prev
  | _ + 1, .wb, inp, prev, k => if wbHolds prev inp then k inp prev else none
  | _ + 1, .bol, inp, prev, k => if bolHolds prev then k inp prev else none

/-- Match a list of capture groups in sequence (a `bygroups` pattern is a
concatenation of groups covering the whole match).  The continuation
receives the consumed span of each group. -/
def matchComps {α : Type} (fuel : Nat) : List RE → List Char → Option Char →
    (List (List Char) → List Char → Option Char → Option α) → Option α
  | [], inp, prev, k => k [] inp prev
  | re :: rs, inp, prev, k =>
    matchF fuel re inp prev (fun rest p =>
      matchComps fuel rs rest p (fun spans rest2 p2 =>
        k (inp.take (inp.length - rest.length) :: spans) rest2 p2))

/-- One rule of a state: a single-type rule `(pattern, TokenType[, new_state])`
or a `bygroups` rule assigning a type to each group of the pattern. -/
inductive Rule where
  | simple (re : RE) (t : Tok) (ops : List StackOp)
  | grouped (comps : List (RE × Tok)) (ops : List StackOp)

/-- Apply one rule at the current offset.  A `simple` rule emits one token
covering the whole match; a `grouped` rule emits one token per non-empty
group (Pygments' `bygroups` skips groups whose text is empty). -/
def applyRule (fuel : Nat) (r : Rule) (inp : List Char) (prev : Option Char) :
    Option (List (Tok × List Char) × List Char × Option Char × List StackOp) :=
  match r with
  | .simple re t ops =>
    matchF fuel re inp prev (fun rest p =>
      some ([(t, inp.take (inp.length - rest.length))], rest, p, ops))
  | .grouped comps ops =>
    matchComps fuel (comps.map Prod.fst) inp prev (fun spans rest p =>
      some ((((comps.map Prod.snd).zip spans).filter (fun tc => !tc.2.isEmpty)),
            rest, p, ops))

/-- Try the rules of a state in order; the first rule that matches at the
current offset wins. -/
def scanRules (fuel : Nat) : List Rule → List Char → Option Char →
    Option (List (Tok × List Char) × List Char × Option Char × List StackOp)
  | [], _, _ => none
  | r :: rs, inp, prev =>
    match applyRule fuel r inp prev with
    | some res => some res
    | none => scanRules fuel rs inp prev

/-! ## Grammar tables (verbatim from the source) -/

def cypher_keywords : List String :=
  ["AS", "ASC", "ASCENDING", "ASSERT", "ASSERT EXISTS", "CALL", "CONSTRAINT ON",
   "CREATE", "CREATE UNIQUE", "CYPHER", "DELETE", "DESC", "DESCENDING",
   "DETACH DELETE", "DO", "DROP", "EXPLAIN", "FIELDTERMINATOR", "FOREACH",
   "FROM", "GRAPH", "GRAPH AT", "GRAPH OF", "INDEX ON", "INTO", "IS NODE KEY",
   "IS UNIQUE", "LIMIT", "LOAD", "LOAD CSV", "MATCH", "MERGE", "ON CREATE SET",
   "ON MATCH SET", "OPTIONAL MATCH", "ORDER BY", "PERSIST", "_PRAGMA",
   "PROFILE", "REMOVE", "RELOCATE", "RETURN", "RETURN DISTINCT", "SET", "SKIP",
   "SNAPSHOT", "SOURCE", "START", "TARGET", "UNION", "UNION ALL", "UNWIND",
   "USING INDEX", "USING JOIN ON", "USING PERIODIC COMMIT", "USING SCAN",
   "WHERE", "WITH", "WITH DISTINCT", "WITH HEADERS", "YIELD", ">>"]

def cypher_pseudo_keywords : List String :=
  ["BEGIN", "COMMIT", "ROLLBACK"]

def cypher_operator_symbols : List String :=
  ["!=", "%", "*", "+", "+=", "-", ".", "/", "<", "<=", "<>", "=", "=~",
   ">", ">=", "^"]

def cypher_operator_words : List String :=
  ["AND", "CASE", "CONTAINS", "DISTINCT", "ELSE", "END", "ENDS WITH", "IN",
   "IS NOT NULL", "IS NULL", "NOT", "OR", "STARTS WITH", "THEN", "WHEN", "XOR"]

def cypher_constants : List String :=
  ["null", "true", "false"]

/-! ## The rule compiler (`word_list` / `symbol_list`)

`word_list(words, t)` builds, for each word, the pattern
`word.replace(" ", r"\s+") + r"\b"`, pairs it with `t`, sorts the pairs
and reverses — i.e. the rules appear in descending lexicographic order of
their *pattern source strings* (patterns are pairwise distinct, so the
token type is never compared).  `symbol_list` does the same with every
character of the symbol backslash-escaped. -/

/-- The regex source string `word.replace(" ", r"\s+") + r"\b"` used as
the sort key of `word_list` (as a character list, compared by code point
exactly as Python compares strings). -/
def wordPattern (w : String) : List Char :=
  (w.data.flatMap (fun c => if c = ' ' then ['\\', 's', '+'] else [c])) ++ ['\\', 'b']

/-- The regex source string `"".join("\\" + ch for ch in symbol)` used as
the sort key of `symbol_list`. -/
def symbolPattern (s : String) : List Char :=
  s.data.foldr (fun c acc => '\\' :: c :: acc) []

/-- Insert into a list kept in descending order of the key `f`. -/
def insertDescBy (f : String → List Char) (w : String) : List String → List String
  | [] => [w]
  | x :: xs => if f x < f w then w :: x :: xs else x :: insertDescBy f w xs

/-- Sort in descending order of the key `f` (Python's
`reversed(sorted(...))` on pairs whose first components are distinct). -/
def sortDescBy (f : String → List Char) (ws : List String) : List String :=
  ws.foldr (insertDescBy f) []

/-- Split a character list at a separator character (Python's
`str.split(sep)` shape: `n` separators produce `n + 1` chunks). -/
def splitChar (sep : Char) : List Char → List (List Char)
  | [] => [[]]
  | c :: rest =>
    if c = sep then [] :: splitChar sep rest
    else
      match splitChar sep rest with
      | [] => [[c]]
      | p :: ps => (c :: p) :: ps

/-- The matcher of one word pattern: the literal parts of the word joined
by `\s+` (internal whitespace matches any non-empty whitespace run). -/
def wordCore : List (List Char) → RE
  | [] => RE.eps
  | [p] => litRE p
  | p :: ps => RE.seq (litRE p) (RE.seq (plusRE (RE.pred isPySpace)) (wordCore ps))

/-- The full word rule pattern: the word with `\s+` for internal spaces,
followed by the `\b` word-boundary assertion. -/
def wordRE (w : String) : RE :=
  RE.seq (wordCore (splitChar ' ' w.data)) RE.wb

/-- `word_list`: one `simple` rule per word, in descending pattern order. -/
def word_list (words : List String) (t : Tok) : List Rule :=
  (sortDescBy wordPattern words).map (fun w => Rule.simple (wordRE w) t [])

/-- `symbol_list`: one literal rule per symbol, in descending order of the
escaped pattern strings. -/
def symbol_list (symbols : List String) (t : Tok) : List Rule :=
  (sortDescBy symbolPattern symbols).map (fun s => Rule.simple (litRE s.data) t [])

/-! ## The individual rule patterns of `CypherLexer.tokens` -/

/-- The backquote character (code point 96). -/
def btick : Char := Char.ofNat 96

/-- `.` (no DOTALL: anything but a newline). -/
def dotRE : RE := RE.pred (fun c => c != '\n')

/-- The literal newline at the end of the line-comment pattern. -/
def nlRE : RE := RE.pred (fun c => c == '\n')

/-- `^.*//.*\n` — a whole line containing `//`, as one single-line comment. -/
def commentLineRE : RE :=
  RE.seq RE.bol (RE.seq (RE.star dotRE)
    (RE.seq (litRE ['/', '/']) (RE.seq (RE.star dotRE) nlRE)))

/-- `` `(?:``|[^`])+` `` — a backquoted name. -/
def btNameRE : RE :=
  RE.seq (RE.pred (fun c => c == btick))
    (RE.seq (plusRE (RE.alt
        (RE.seq (RE.pred (fun c => c == btick)) (RE.pred (fun c => c == btick)))
        (RE.pred (fun c => c != btick))))
      (RE.pred (fun c => c == btick)))

/-- `[A-Za-z_][0-9A-Za-z_]*` — a plain name. -/
def plainNameRE : RE :=
  RE.seq (RE.pred (fun c => c.isAlpha || c == '_')) (RE.star (RE.pred isWordChar))

/-- `[A-Za-z_][0-9A-Za-z_\.]*` — a possibly dotted name (functions,
procedures). -/
def dottedNameRE : RE :=
  RE.seq (RE.pred (fun c => c.isAlpha || c == '_'))
    (RE.star (RE.pred (fun c => isWordChar c || c == '.')))

/-- `[0-9]` -/
def digitRE : RE := RE.pred Char.isDigit

/-- `(e[+-]?[0-9]+)` — the exponent of a float (case-insensitive `e`). -/
def expRE : RE :=
  RE.seq (RE.pred (fun c => caseEqChar 'e' c))
    (RE.seq (optRE (RE.pred (fun c => c == '+' || c == '-'))) (plusRE digitRE))

/-- The escape alternatives and the plain characters of a string literal
with quote `q`: `(?:\\[bfnrt\"'\\]|\\u[0-9A-Fa-f]{4}|\\U[0-9A-Fa-f]{8}|[^\\q])*`. -/
def isHexDigit (c : Char) : Bool :=
  c.isDigit || ('a' ≤ c && c ≤ 'f') || ('A' ≤ c && c ≤ 'F')

def escClassRE : RE :=
  RE.seq (RE.pred (fun c => c == '\\'))
    (RE.pred (fun c =>
      caseEqChar 'b' c || caseEqChar 'f' c || caseEqChar 'n' c ||
      caseEqChar 'r' c || caseEqChar 't' c || c == '"' || c == '\'' || c == '\\'))

def hex4RE : RE :=
  RE.seq (RE.pred isHexDigit) (RE.seq (RE.pred isHexDigit)
    (RE.seq (RE.pred isHexDigit) (RE.pred isHexDigit)))

def uEscRE : RE :=
  RE.seq (RE.pred (fun c => c == '\\'))
    (RE.seq (RE.pred (fun c => caseEqChar 'u' c)) hex4RE)

def bigUEscRE : RE :=
  RE.seq (RE.pred (fun c => c == '\\'))
    (RE.seq (RE.pred (fun c => caseEqChar 'u' c)) (RE.seq hex4RE hex4RE))

/-- A complete quoted string literal with quote character `q`. -/
def stringRE (q : Char) : RE :=
  RE.seq (RE.pred (fun c => c == q))
    (RE.seq (RE.star (RE.alt escClassRE (RE.alt uEscRE (RE.alt bigUEscRE
        (RE.pred (fun c => c != '\\' && c != q))))))
      (RE.pred (fun c => c == q)))

/-- `\)\s*<?-+>?\s*\(` — close-paren, arrow, open-paren (stay in `in-()`). -/
def arrowPPRE : RE :=
  RE.seq (RE.pred (fun c => c == ')'))
    (RE.seq (RE.star (RE.pred isPySpace))
      (RE.seq (optRE (RE.pred (fun c => c == '<')))
        (RE.seq (plusRE (RE.pred (fun c => c == '-')))
          (RE.seq (optRE (RE.pred (fun c => c == '>')))
            (RE.seq (RE.star (RE.pred isPySpace)) (RE.pred (fun c => c == '(')))))))

/-- `\)\s*<?-+\s*\[` — close-paren into open-bracket (`('#pop', 'in-[]')`). -/
def arrowPBRE : RE :=
  RE.seq (RE.pred (fun c => c == ')'))
    (RE.seq (RE.star (RE.pred isPySpace))
      (RE.seq (optRE (RE.pred (fun c => c == '<')))
        (RE.seq (plusRE (RE.pred (fun c => c == '-')))
          (RE.seq (RE.star (RE.pred isPySpace)) (RE.pred (fun c => c == '['))))))

/-- `\]\s*-+>?\s*\(` — close-bracket into open-paren (`('#pop', 'in-()')`). -/
def arrowBPRE : RE :=
  RE.seq (RE.pred (fun c => c == ']'))
    (RE.seq (RE.star (RE.pred isPySpace))
      (RE.seq (plusRE (RE.pred (fun c => c == '-')))
        (RE.seq (optRE (RE.pred (fun c => c == '>')))
          (RE.seq (RE.star (RE.pred isPySpace)) (RE.pred (fun c => c == '('))))))

/-! ## The state table (`CypherLexer.tokens`), with `include`s spliced in -/

def stringsRules : List Rule :=
  [Rule.simple (stringRE '\'') Tok.str [],
   Rule.simple (stringRE '"') Tok.str []]

def commentsRules : List Rule :=
  [Rule.simple commentLineRE Tok.commentSingle [],
   Rule.simple (litRE ['/', '*']) Tok.commentMultiline [StackOp.push SName.mlComment]]

def keywordsRules : List Rule := word_list cypher_keywords Tok.keyword

def pseudoKeywordsRules : List Rule := word_list cypher_pseudo_keywords Tok.keyword

def labelsRules : List Rule :=
  [Rule.grouped [(litRE [':'], Tok.punctuation), (RE.star (RE.pred isPySpace), Tok.whitespace),
                 (btNameRE, Tok.nameLabel)] [],
   Rule.grouped [(litRE [':'], Tok.punctuation), (RE.star (RE.pred isPySpace), Tok.whitespace),
                 (plainNameRE, Tok.nameLabel)] []]

def operatorsRules : List Rule :=
  word_list cypher_operator_words Tok.operator ++
  symbol_list cypher_operator_symbols Tok.operator

def proceduresRules : List Rule :=
  [Rule.grouped [(litRE "CALL".data, Tok.keyword), (plusRE (RE.pred isPySpace), Tok.whitespace),
                 (dottedNameRE, Tok.nameFunction)] []]

def functionsRules : List Rule :=
  [Rule.grouped [(dottedNameRE, Tok.nameFunction), (RE.star (RE.pred isPySpace), Tok.whitespace),
                 (litRE ['('], Tok.punctuation)] [StackOp.push SName.inParen]]

def aliasesRules : List Rule :=
  [Rule.grouped [(litRE "AS".data, Tok.keyword), (plusRE (RE.pred isPySpace), Tok.whitespace),
                 (btNameRE, Tok.nameVariable)] [],
   Rule.grouped [(litRE "AS".data, Tok.keyword), (plusRE (RE.pred isPySpace), Tok.whitespace),
                 (plainNameRE, Tok.nameVariable)] []]

def variablesRules : List Rule :=
  [Rule.simple btNameRE Tok.nameVariable [],
   Rule.simple plainNameRE Tok.nameVariable []]

def parametersRules : List Rule :=
  [Rule.grouped [(litRE ['$'], Tok.punctuation), (btNameRE, Tok.nameVariableGlobal)] [],
   Rule.grouped [(litRE ['$'], Tok.punctuation), (plainNameRE, Tok.nameVariableGlobal)] []]

def constantsRules : List Rule := word_list cypher_constants Tok.nameConstant

def numbersRules : List Rule :=
  [Rule.simple (RE.seq (RE.star digitRE) (RE.seq (RE.pred (fun c => c == '.'))
      (RE.seq (RE.star digitRE) (optRE expRE)))) Tok.numberFloat [],
   Rule.simple (RE.seq (plusRE digitRE) expRE) Tok.numberFloat [],
   Rule.simple (plusRE digitRE) Tok.numberInteger []]

def expressionsRules : List Rule :=
  proceduresRules ++ functionsRules ++ constantsRules ++ aliasesRules ++
  variablesRules ++ parametersRules ++ numbersRules

def whitespaceRules : List Rule :=
  [Rule.simple (plusRE (RE.pred isPySpace)) Tok.whitespace []]

def rootRules : List Rule :=
  stringsRules ++ commentsRules ++ keywordsRules ++ pseudoKeywordsRules ++
  [Rule.simple (RE.pred (fun c => c == ',' || c == ';')) Tok.punctuation []] ++
  labelsRules ++ operatorsRules ++ expressionsRules ++ whitespaceRules ++
  [Rule.simple (litRE ['(']) Tok.punctuation [StackOp.push SName.inParen],
   Rule.simple (litRE ['[']) Tok.punctuation [StackOp.push SName.inBracket],
   Rule.simple (litRE ['\x7b']) Tok.punctuation [StackOp.push SName.inBrace]]

def inParenRules : List Rule :=
  stringsRules ++ commentsRules ++ keywordsRules ++
  [Rule.simple (RE.pred (fun c => c == ',' || c == '|')) Tok.punctuation []] ++
  labelsRules ++ operatorsRules ++ expressionsRules ++ whitespaceRules ++
  [Rule.simple (litRE ['(']) Tok.punctuation [StackOp.pushSelf],
   Rule.simple arrowPPRE Tok.punctuation [],
   Rule.simple arrowPBRE Tok.punctuation [StackOp.pop, StackOp.push SName.inBracket],
   Rule.simple (litRE [')']) Tok.punctuation [StackOp.pop],
   Rule.simple (litRE ['[']) Tok.punctuation [StackOp.push SName.inBracket],
   Rule.simple (litRE ['\x7b']) Tok.punctuation [StackOp.push SName.inBrace]]

def inBracketRules : List Rule :=
  stringsRules ++ commentsRules ++
  [Rule.simple (wordRE "WHERE") Tok.keyword []] ++
  [Rule.simple (RE.pred (fun c => c == ',' || c == '|')) Tok.punctuation []] ++
  labelsRules ++ operatorsRules ++ expressionsRules ++ whitespaceRules ++
  [Rule.simple (litRE ['(']) Tok.punctuation [StackOp.push SName.inParen],
   Rule.simple (litRE ['[']) Tok.punctuation [StackOp.pushSelf],
   Rule.simple arrowBPRE Tok.punctuation [StackOp.pop, StackOp.push SName.inParen],
   Rule.simple (litRE [']']) Tok.punctuation [StackOp.pop],
   Rule.simple (litRE ['\x7b']) Tok.punctuation [StackOp.push SName.inBrace]]

def inBraceRules : List Rule :=
  stringsRules ++ commentsRules ++
  [Rule.simple (RE.pred (fun c => c == ',' || c == ':')) Tok.punctuation []] ++
  operatorsRules ++ expressionsRules ++ whitespaceRules ++
  [Rule.simple (litRE ['(']) Tok.punctuation [StackOp.push SName.inParen],
   Rule.simple (litRE ['[']) Tok.punctuation [StackOp.push SName.inBracket],
   Rule.simple (litRE ['\x7b']) Tok.punctuation [StackOp.pushSelf],
   Rule.simple (litRE ['\x7d']) Tok.punctuation [StackOp.pop]]

def mlCommentRules : List Rule :=
  [Rule.simple (litRE ['/', '*']) Tok.commentMultiline [StackOp.push SName.mlComment],
   Rule.simple (litRE ['*', '/']) Tok.commentMultiline [StackOp.pop],
   Rule.simple (plusRE (RE.pred (fun c => c != '/' && c != '*'))) Tok.commentMultiline [],
   Rule.simple (RE.pred (fun c => c == '/' || c == '*')) Tok.commentMultiline []]

/-- The compiled state table. -/
def tokens : SName → List Rule
  | SName.root => rootRules
  | SName.inParen => inParenRules
  | SName.inBracket => inBracketRules
  | SName.inBrace => inBraceRules
  | SName.mlComment => mlCommentRules

/-! ## The driver loop (`RegexLexer.get_tokens_unprocessed`) -/

/-- Apply one stack operation; a pop never empties the stack (Pygments
keeps at least one state). -/
def applyOp : StackOp → List SName → List SName
  | StackOp.pop, _ :: s2 :: rest => s2 :: rest
  | StackOp.pop, st => st
  | StackOp.push s, st => s :: st
  | StackOp.pushSelf, s :: rest => s :: s :: rest
  | StackOp.pushSelf, [] => [SName.root]

def applyOps : List StackOp → List SName → List SName
  | [], st => st
  | op :: ops, st => applyOps ops (applyOp op st)

/-- The top of the state stack (root if empty, which cannot happen). -/
def topState : List SName → SName
  | [] => SName.root
  | s :: _ => s

/-- Matcher fuel for one driver step: generous linear bound (the search
depth of any pattern of this grammar is at most a constant per consumed
character plus a constant). -/
def mFuel (inp : List Char) : Nat := 32 * inp.length + 64

/-- The driver loop.  At each offset, try the rules of the current top
state in order; on a match emit the rule's tokens (each tagged with the
state stack at the time of emission), advance past the match and apply the
stack operations.  If no rule matches: on a newline, reset the stack to
`['root']` and emit the newline as a `Text` token; otherwise emit a
one-character `Error` token — either way the offset advances by one.
A match of length zero is treated as no match (no rule of this grammar can
match the empty string; the guard makes progress, and hence termination
with fuel equal to the input length, evident). -/
def lexRun : Nat → List SName → Option Char → List Char →
    List (List SName × Tok × List Char)
  | _, _, _, [] => []
  | 0, _, _, _ :: _ => []
  | n + 1, stack, prev, c :: rest =>
    match scanRules (mFuel (c :: rest)) (tokens (topState stack)) (c :: rest) prev with
    | some (toks, rest2, p2, ops) =>
      if rest2.length < rest.length + 1 then
        toks.map (fun tt => (stack, tt.1, tt.2)) ++
          lexRun n (applyOps ops stack) p2 rest2
      else if c = '\n' then
        (stack, Tok.text, ['\n']) :: lexRun n [SName.root] (some '\n') rest
      else
        (stack, Tok.error, [c]) :: lexRun n stack (some c) rest
    | none =>
      if c = '\n' then
        (stack, Tok.text, ['\n']) :: lexRun n [SName.root] (some '\n') rest
      else
        (stack, Tok.error, [c]) :: lexRun n stack (some c) rest

/-- One full tokenization pass over `text`, starting in `root` with an
empty accumulator; each step consumes at least one character, so fuel
equal to the input length suffices. -/
def tokenize (text : List Char) : List (List SName × Tok × List Char) :=
  lexRun text.length [SName.root] none text

/-- The concatenation of the text spans of a token list. -/
def joinTexts (ts : List (List SName × Tok × List Char)) : List Char :=
  (ts.map (fun t => t.2.2)).flatten

/-! ## The statement splitter (`CypherLexer.get_statements`) -/

/-- Python's `str.strip()` on the ASCII whitespace fragment: drop leading
and trailing whitespace characters. -/
def pyStrip (l : List Char) : List Char :=
  ((l.dropWhile isPySpace).reverse.dropWhile isPySpace).reverse

/-- The splitting loop of `get_statements`: accumulate token values; at a
`(Punctuation, ";")` token flush the accumulator, stripped, yielding it if
non-empty; at the end of the stream flush once more. -/
def splitStatements : List (Tok × List Char) → List Char → List (List Char)
  | [], acc =>
    if (pyStrip acc).isEmpty then [] else [pyStrip acc]
  | (t, v) :: rest, acc =>
    if t = Tok.punctuation ∧ v = [';'] then
      (if (pyStrip acc).isEmpty then id else List.cons (pyStrip acc))
        (splitStatements rest [])
    else
      splitStatements rest (acc ++ v)

/-- `get_statements`: split the token stream of `text` at top-level
semicolon punctuation, yielding the stripped non-empty chunks. -/
def get_statements (text : List Char) : List (List Char) :=
  splitStatements ((tokenize text).map (fun t => (t.2.1, t.2.2))) []

/-! ## Auxiliary notions used in the statements of the claims -/

/-- The predicate that the first character of any match of `re` must
satisfy, when one can be read off the syntax tree (a pattern that starts
with a character class). -/
def firstCharPred : RE → Option (Char → Bool)
  | RE.pred p => some p
  | RE.seq a _ => firstCharPred a
  | _ => none

/-- Case-insensitive "starts with" on character lists. -/
def caseStartsWith : List Char → List Char → Bool
  | [], _ => true
  | _ :: _, [] => false
  | c :: cs, x :: xs => caseEqChar c x && caseStartsWith cs xs

/-- `l1` is a prefix of `l2` (character-exact). -/
def isPref : List Char → List Char → Bool
  | [], _ => true
  | _ :: _, [] => false
  | a :: as, b :: bs => a == b && isPref as bs

/-- `l1` is a strict (proper) prefix of `l2`. -/
def isStrictPref (l1 l2 : List Char) : Bool :=
  isPref l1 l2 && decide (l1.length < l2.length)

/-- The index of the first occurrence of `w` in `ws` (length of `ws` when
absent); used to speak about the position of a literal's rule in a
compiled rule list. -/
def idxOf (w : String) : List String → Nat
  | [] => 0
  | x :: xs => if x = w then 0 else idxOf w xs + 1

/-- A rule never emits a separator token `(Punctuation, ";")`, whatever
the input. -/
def RuleNoSemi (r : Rule) : Prop :=
  ∀ (fuel : Nat) (inp : List Char) (prev : Option Char) toks rest p ops,
    applyRule fuel r inp prev = some (toks, rest, p, ops) →
    ∀ t v, (t, v) ∈ toks → ¬(t = Tok.punctuation ∧ v = [';'])

/-- No-shadowing check for a word table: every literal that ends in a word
character (i.e. can occur as a prefix of an identifier at all — this
excludes only `>>`), followed by a separator, is matched by the compiled
rule list as one whole token of the right type: no shorter literal placed
earlier in the compiled order steals a prefix of it. -/
def kwSelfCheck (tbl : List String) (t : Tok) : Bool :=
  tbl.all (fun w =>
    if isWordChar (w.data.getLastD ' ') then
      match scanRules (mFuel (w.data ++ [';'])) (word_list tbl t) (w.data ++ [';']) none with
      | some (toks, rest, _, _) => decide (toks = [(t, w.data)]) && decide (rest = [';'])
      | none => false
    else true)

/-- Prefix-of-identifier check for a word table: the compiled rule of
each literal ending in a word character fails on the literal immediately
followed by a further identifier character — the `\b` assertion prevents
a keyword from matching as a proper prefix of a longer identifier. -/
def kwNoPrefCheck (tbl : List String) (t : Tok) : Bool :=
  tbl.all (fun w =>
    if isWordChar (w.data.getLastD ' ') then
      (applyRule (mFuel (w.data ++ ['A'])) (Rule.simple (wordRE w) t [])
        (w.data ++ ['A']) none).isNone
    else true)

/-- No-shadowing check for the symbol table: every symbol, alone, is
matched by the compiled rule list as one whole token. -/
def symSelfCheck (tbl : List String) (t : Tok) : Bool :=
  tbl.all (fun s =>
    match scanRules (mFuel s.data) (symbol_list tbl t) s.data none with
    | some (toks, rest, _, _) => decide (toks = [(t, s.data)]) && decide (rest = [])
    | none => false)

/-- Compiled-order law for a word table: for every strict-prefix pair of
literals, if the longer literal diverges with a space (a multi-word
extension) its rule comes first; otherwise the shorter literal's rule
comes first (its pattern continues with `\b`, whose backslash sorts above
every uppercase letter). -/
def prefOrderCheck (tbl : List String) : Bool :=
  tbl.all (fun w1 => tbl.all (fun w2 =>
    if isStrictPref w1.data w2.data then
      if w2.data.getD w1.data.length ' ' = ' ' then
        decide (idxOf w2 (sortDescBy wordPattern tbl) < idxOf w1 (sortDescBy wordPattern tbl))
      else
        decide (idxOf w1 (sortDescBy wordPattern tbl) < idxOf w2 (sortDescBy wordPattern tbl))
    else true))

/-- Compiled-order law for the symbol table: the longer literal of a
strict-prefix pair always comes first. -/
def symPrefOrderCheck (tbl : List String) : Bool :=
  tbl.all (fun w1 => tbl.all (fun w2 =>
    if isStrictPref w1.data w2.data then
      decide (idxOf w2 (sortDescBy symbolPattern tbl) < idxOf w1 (sortDescBy symbolPattern tbl))
    else true))

/-- The previous-character value after consuming `s` (the last character
of `s`, or the incoming value when `s` is empty). -/
def lastPrev (s : List Char) (prev : Option Char) : Option Char :=
  s.foldl (fun _ c => some c) prev

/-- The first space-separated part of a word literal. -/
def firstPart (w : String) : List Char :=
  (splitChar ' ' w.data).headD []

/-- The line contains two adjacent slashes (as the case-folded literal
`//` of the line-comment pattern matches them). -/
def hasDSlash : List Char → Bool
  | [] => false
  | [_] => false
  | c1 :: c2 :: rest =>
    (caseEqChar '/' c1 && caseEqChar '/' c2) || hasDSlash (c2 :: rest)

/-! # Theorems

## Engine lemmas: every successful match consumes a prefix -/

/-- If a match succeeds, the continuation was invoked on a suffix of the
input: the match consumed exactly the prefix in front of it.  Moreover,
when the pattern starts with a character class, the consumed prefix starts
with a character of that class. -/
theorem matchF_some {α : Type} :
    ∀ (fuel : Nat) (re : RE) (inp : List Char) (prev : Option Char)
      (k : List Char → Option Char → Option α) (v : α),
      matchF fuel re inp prev k = some v →
      ∃ pre rest p2, inp = pre ++ rest ∧ k rest p2 = some v ∧
        ∀ q, firstCharPred re = some q → ∃ c tl, pre = c :: tl ∧ q c = true := by
  intro fuel
  induction fuel with
  | zero => intro re inp prev k v h; simp [matchF] at h
  | succ n ih =>
    intro re inp prev k v h
    cases re with
    | eps =>
      refine ⟨[], inp, prev, rfl, by simpa [matchF] using h, ?_⟩
      intro q hq; simp [firstCharPred] at hq
    | pred p =>
      cases inp with
      | nil => simp [matchF] at h
      | cons c rest =>
        simp only [matchF] at h
        by_cases hc : p c
        · rw [if_pos hc] at h
          refine ⟨[c], rest, some c, rfl, h, ?_⟩
          intro q hq
          simp only [firstCharPred, Option.some.injEq] at hq
          exact ⟨c, [], rfl, hq ▸ hc⟩
        · rw [if_neg hc] at h; cases h
    | seq a b =>
      simp only [matchF] at h
      obtain ⟨pre1, rest1, p1, hsplit1, hk1, hfc1⟩ := ih a inp prev _ v h
      obtain ⟨pre2, rest2, p2, hsplit2, hk2, _⟩ := ih b rest1 p1 k v hk1
      refine ⟨pre1 ++ pre2, rest2, p2, ?_, hk2, ?_⟩
      · rw [hsplit1, hsplit2, List.append_assoc]
      · intro q hq
        simp only [firstCharPred] at hq
        obtain ⟨c, tl, hpre1, hqc⟩ := hfc1 q hq
        exact ⟨c, tl ++ pre2, by rw [hpre1]; rfl, hqc⟩
    | alt a b =>
      simp only [matchF] at h
      cases ha : matchF n a inp prev k with
      | some w =>
        rw [ha] at h
        obtain ⟨pre, rest, p2, hsplit, hk, _⟩ := ih a inp prev k w ha
        cases h
        exact ⟨pre, rest, p2, hsplit, hk, by intro q hq; simp [firstCharPred] at hq⟩
      | none =>
        rw [ha] at h
        obtain ⟨pre, rest, p2, hsplit, hk, _⟩ := ih b inp prev k v h
        exact ⟨pre, rest, p2, hsplit, hk, by intro q hq; simp [firstCharPred] at hq⟩
    | star r =>
      simp only [matchF] at h
      cases ha : matchF n r inp prev (fun rest p =>
          if rest.length < inp.length then matchF n (RE.star r) rest p k else none) with
      | some w =>
        rw [ha] at h
        cases h
        obtain ⟨pre1, rest1, p1, hsplit1, hk1, _⟩ := ih r inp prev _ v ha
        by_cases hlt : rest1.length < inp.length
        · rw [if_pos hlt] at hk1
          obtain ⟨pre2, rest2, p2, hsplit2, hk2, _⟩ := ih (RE.star r) rest1 p1 k v hk1
          refine ⟨pre1 ++ pre2, rest2, p2, ?_, hk2, ?_⟩
          · rw [hsplit1, hsplit2, List.append_assoc]
          · intro q hq; simp [firstCharPred] at hq
        · rw [if_neg hlt] at hk1; cases hk1
      | none =>
        rw [ha] at h
        exact ⟨[], inp, prev, rfl, h, by intro q hq; simp [firstCharPred] at hq⟩
    | wb =>
      simp only [matchF] at h
      by_cases hb : wbHolds prev inp
      · rw [if_pos hb] at h
        exact ⟨[], inp, prev, rfl, h, by intro q hq; simp [firstCharPred] at hq⟩
      · rw [if_neg hb] at h; cases h
    | bol =>
      simp only [matchF] at h
      by_cases hb : bolHolds prev
      · rw [if_pos hb] at h
        exact ⟨[], inp, prev, rfl, h, by intro q hq; simp [firstCharPred] at hq⟩
      · rw [if_neg hb] at h; cases h

/-- For a successful group-sequence match, the input decomposes as the
concatenation of the group spans followed by the rest, with one span per
group, each span satisfying the head-class of its group pattern. -/
theorem matchComps_some {α : Type} :
    ∀ (comps : List RE) (fuel : Nat) (inp : List Char) (prev : Option Char)
      (k : List (List Char) → List Char → Option Char → Option α) (v : α),
      matchComps fuel comps inp prev k = some v →
      ∃ spans rest p2, inp = spans.flatten ++ rest ∧ spans.length = comps.length ∧
        k spans rest p2 = some v ∧
        List.Forall₂ (fun re span =>
          ∀ q, firstCharPred re = some q → ∃ c tl, span = c :: tl ∧ q c = true) comps spans := by
  intro comps
  induction comps with
  | nil =>
    intro fuel inp prev k v h
    exact ⟨[], inp, prev, rfl, rfl, by simpa [matchComps] using h, List.Forall₂.nil⟩
  | cons re rs ih =>
    intro fuel inp prev k v h
    simp only [matchComps] at h
    obtain ⟨pre, rest1, p1, hsplit1, hk1, hfc⟩ := matchF_some fuel re inp prev _ v h
    obtain ⟨spans2, rest2, p2, hsplit2, hlen, hk2, hall⟩ := ih fuel rest1 p1 _ v hk1
    have htake : inp.take (inp.length - rest1.length) = pre := by
      rw [hsplit1]
      have : (pre ++ rest1).length - rest1.length = pre.length := by
        simp [List.length_append]
      rw [this, List.take_left]
    rw [htake] at hk2
    refine ⟨pre :: spans2, rest2, p2, ?_, by simpa using hlen, hk2, ?_⟩
    · rw [hsplit1, hsplit2]; simp [List.append_assoc]
    · exact List.Forall₂.cons hfc hall

/-- Dropping the empty spans of a `bygroups` emission does not change the
concatenation of the texts. -/
theorem zipFilterFlatten :
    ∀ (ts : List Tok) (ss : List (List Char)), ts.length = ss.length →
      (((ts.zip ss).filter (fun tc => !tc.2.isEmpty)).map (fun t => t.2)).flatten
        = ss.flatten := by
  intro ts
  induction ts with
  | nil =>
    intro ss h
    cases ss with
    | nil => simp
    | cons s ss2 => simp at h
  | cons t ts2 ih =>
    intro ss h
    cases ss with
    | nil => simp at h
    | cons s ss2 =>
      rcases s with _ | ⟨c, s2⟩
      · simpa [List.filter] using ih ss2 (by simpa using h)
      · simpa [List.filter] using ih ss2 (by simpa using h)

/-- Emitted token texts of one rule application concatenate to exactly the
consumed span: the input is the emitted texts followed by the rest. -/
theorem applyRule_some :
    ∀ (fuel : Nat) (r : Rule) (inp : List Char) (prev : Option Char) toks rest p ops,
      applyRule fuel r inp prev = some (toks, rest, p, ops) →
      inp = (toks.map (fun t => t.2)).flatten ++ rest := by
  intro fuel r inp prev toks rest p ops h
  cases r with
  | simple re t rops =>
    simp only [applyRule] at h
    obtain ⟨pre, rest1, p1, hsplit, hk, _⟩ := matchF_some fuel re inp prev _ _ h
    have htake : inp.take (inp.length - rest1.length) = pre := by
      rw [hsplit]
      have hl : (pre ++ rest1).length - rest1.length = pre.length := by
        simp [List.length_append]
      rw [hl, List.take_left]
    rw [htake] at hk
    simp only [Option.some.injEq, Prod.mk.injEq] at hk
    obtain ⟨h1, h2, _, _⟩ := hk
    subst h1 h2
    simpa using hsplit
  | grouped comps rops =>
    simp only [applyRule] at h
    obtain ⟨spans, rest1, p1, hsplit, hlen, hk, _⟩ :=
      matchComps_some (comps.map Prod.fst) fuel inp prev _ _ h
    simp only [Option.some.injEq, Prod.mk.injEq] at hk
    obtain ⟨h1, h2, _, _⟩ := hk
    subst h1 h2
    rw [zipFilterFlatten _ _ (by simp [hlen])]
    exact hsplit

/-- Coverage for the scan over a state's rule list. -/
theorem scanRules_some :
    ∀ (fuel : Nat) (rules : List Rule) (inp : List Char) (prev : Option Char) toks rest p ops,
      scanRules fuel rules inp prev = some (toks, rest, p, ops) →
      inp = (toks.map (fun t => t.2)).flatten ++ rest := by
  intro fuel rules
  induction rules with
  | nil => intro inp prev toks rest p ops h; simp [scanRules] at h
  | cons r rs ih =>
    intro inp prev toks rest p ops h
    simp only [scanRules] at h
    cases ha : applyRule fuel r inp prev with
    | some res =>
      rw [ha] at h
      cases h
      exact applyRule_some fuel r inp prev _ _ _ _ ha
    | none =>
      rw [ha] at h
      exact ih inp prev toks rest p ops h

/-- `joinTexts` distributes over append. -/
theorem joinTexts_append (a b : List (List SName × Tok × List Char)) :
    joinTexts (a ++ b) = joinTexts a ++ joinTexts b := by
  simp [joinTexts]

/-- Driver coverage: with fuel at least the input length (each step
consumes at least one character), the emitted token texts concatenate to
the whole input. -/
theorem lexRun_texts :
    ∀ (n : Nat) (stack : List SName) (prev : Option Char) (inp : List Char),
      inp.length ≤ n → joinTexts (lexRun n stack prev inp) = inp := by
  intro n
  induction n with
  | zero =>
    intro stack prev inp h
    have : inp = [] := List.length_eq_zero.mp (Nat.le_zero.mp h)
    subst this
    simp [lexRun, joinTexts]
  | succ n ih =>
    intro stack prev inp h
    cases inp with
    | nil => simp [lexRun, joinTexts]
    | cons c rest =>
      have hrest : rest.length ≤ n := by
        have := h; simp only [List.length_cons] at this; omega
      cases hscan : scanRules (mFuel (c :: rest)) (tokens (topState stack)) (c :: rest) prev with
      | some res =>
        obtain ⟨toks, rest2, p2, ops⟩ := res
        by_cases hlt : rest2.length < rest.length + 1
        · have hcov := scanRules_some _ _ _ _ _ _ _ _ hscan
          have hrec : joinTexts (lexRun n (applyOps ops stack) p2 rest2) = rest2 := by
            apply ih; omega
          simp only [lexRun, hscan, if_pos hlt, joinTexts_append]
          have hmap : joinTexts (toks.map (fun tt => (stack, tt.1, tt.2)))
              = (toks.map (fun t => t.2)).flatten := by
            simp only [joinTexts, List.map_map]; rfl
          rw [hmap, hrec, ← hcov]
        · by_cases hc : c = '\n'
          · have hrec : joinTexts (lexRun n [SName.root] (some '\n') rest) = rest :=
              ih _ _ _ hrest
            simp only [lexRun, hscan, if_neg hlt, if_pos hc, joinTexts, List.map_cons,
              List.flatten_cons] at hrec ⊢
            simp [hrec, hc]
          · have hrec : joinTexts (lexRun n stack (some c) rest) = rest := ih _ _ _ hrest
            simp only [lexRun, hscan, if_neg hlt, if_neg hc, joinTexts, List.map_cons,
              List.flatten_cons] at hrec ⊢
            simp [hrec]
      | none =>
        by_cases hc : c = '\n'
        · have hrec : joinTexts (lexRun n [SName.root] (some '\n') rest) = rest :=
            ih _ _ _ hrest
          simp only [lexRun, hscan, if_pos hc, joinTexts, List.map_cons,
            List.flatten_cons] at hrec ⊢
          simp [hrec, hc]
        · have hrec : joinTexts (lexRun n stack (some c) rest) = rest := ih _ _ _ hrest
          simp only [lexRun, hscan, if_neg hc, joinTexts, List.map_cons,
            List.flatten_cons] at hrec ⊢
          simp [hrec]

/-- C1: for every input text, the concatenation, in order, of the text
spans of all tokens emitted by one tokenization pass equals the original
input exactly (total coverage: every character is consumed exactly once,
either by a matched rule or by a one-character Error fallback). -/
theorem tokenize_covers (text : List Char) : joinTexts (tokenize text) = text :=
  lexRun_texts text.length [SName.root] none text (Nat.le_refl _)

/-! ## C9: the one-character Error fallback -/

/-- C9: tokenization is total (the driver is a total function); whenever
no rule of the current state matches at the current offset (and the
character is not the newline that triggers Pygments' stack reset), the
driver emits a single one-character `Error` token covering the current
character and continues one character further — forward progress on any
malformed input. -/
theorem lexRun_error_fallback (n : Nat) (stack : List SName) (prev : Option Char)
    (c : Char) (rest : List Char)
    (hscan : scanRules (mFuel (c :: rest)) (tokens (topState stack)) (c :: rest) prev = none)
    (hc : c ≠ '\n') :
    lexRun (n + 1) stack prev (c :: rest) =
      (stack, Tok.error, [c]) :: lexRun n stack (some c) rest := by
  simp only [lexRun, hscan, if_neg hc]

/-- Witness for C9: in the root state no rule matches a closing brace, so
the tokenizer emits it as a one-character Error token. -/
theorem lexRun_error_fallback_witness :
    lexRun 1 [SName.root] none ['\x7d'] = [([SName.root], Tok.error, ['\x7d'])] := by
  have h := lexRun_error_fallback 0 [SName.root] none '\x7d' []
    (by decide) (by decide)
  simpa [lexRun] using h

/-! ## C8: statements are trimmed and non-empty -/

/-- The head of a `dropWhile isPySpace` result is not whitespace. -/
theorem dropWhile_head_not_space :
    ∀ (l : List Char) c cs, l.dropWhile isPySpace = c :: cs → isPySpace c = false := by
  intro l
  induction l with
  | nil => intro c cs h; cases h
  | cons a as ih =>
    intro c cs h
    by_cases ha : isPySpace a
    · rw [List.dropWhile_cons_of_pos ha] at h
      exact ih c cs h
    · rw [List.dropWhile_cons_of_neg ha] at h
      cases h
      exact Bool.eq_false_iff.mpr ha

/-- `dropWhile` is the identity when the head is not dropped. -/
theorem dropWhile_of_head_not_space (c : Char) (cs : List Char)
    (hc : isPySpace c = false) : (c :: cs).dropWhile isPySpace = c :: cs :=
  List.dropWhile_cons_of_neg (by simp [hc])

/-- Stripping is idempotent. -/
theorem pyStrip_idem (l : List Char) : pyStrip (pyStrip l) = pyStrip l := by
  unfold pyStrip
  cases hr : (l.dropWhile isPySpace).reverse.dropWhile isPySpace with
  | nil => simp [hr]
  | cons d ds =>
    -- the stripped text is `(d :: ds).reverse`; its last character is `d`
    -- and its first character is the first character of `l.dropWhile`.
    have hd : isPySpace d = false := dropWhile_head_not_space _ d ds hr
    have h0 : (List.dropWhile isPySpace l).reverse
        = (List.dropWhile isPySpace l).reverse.takeWhile isPySpace ++ (d :: ds) := by
      conv_lhs => rw [← List.takeWhile_append_dropWhile (p := isPySpace)
        (l := (List.dropWhile isPySpace l).reverse)]
      rw [hr]
    cases hrev : (d :: ds).reverse with
    | nil => simp at hrev
    | cons c cs =>
      have hl : List.dropWhile isPySpace l
          = c :: (cs ++ ((List.dropWhile isPySpace l).reverse.takeWhile isPySpace).reverse) := by
        conv_lhs => rw [← List.reverse_reverse (List.dropWhile isPySpace l), h0,
          List.reverse_append, hrev]
        simp
      have hc : isPySpace c = false := dropWhile_head_not_space l c _ hl
      rw [dropWhile_of_head_not_space c cs hc]
      have h2 : (c :: cs).reverse = d :: ds := by rw [← hrev, List.reverse_reverse]
      rw [h2, dropWhile_of_head_not_space d ds hd]
      exact hrev

/-- Every statement the splitting loop yields is its own strip and is
non-empty, for any token stream and accumulator. -/
theorem splitStatements_mem :
    ∀ (toks : List (Tok × List Char)) (acc s : List Char),
      s ∈ splitStatements toks acc → s = pyStrip s ∧ s ≠ [] := by
  intro toks
  induction toks with
  | nil =>
    intro acc s h
    simp only [splitStatements] at h
    by_cases he : (pyStrip acc).isEmpty
    · rw [if_pos he] at h; cases h
    · rw [if_neg he] at h
      rw [List.mem_singleton] at h
      subst h
      exact ⟨(pyStrip_idem acc).symm, by simpa [List.isEmpty_iff] using he⟩
  | cons tv rest ih =>
    obtain ⟨t, v⟩ := tv
    intro acc s h
    simp only [splitStatements] at h
    by_cases hsep : t = Tok.punctuation ∧ v = [';']
    · rw [if_pos hsep] at h
      by_cases he : (pyStrip acc).isEmpty
      · rw [if_pos he] at h
        exact ih [] s h
      · rw [if_neg he] at h
        rcases List.mem_cons.mp h with h1 | h2
        · subst h1
          exact ⟨(pyStrip_idem acc).symm, by simpa [List.isEmpty_iff] using he⟩
        · exact ih [] s h2
    · rw [if_neg hsep] at h
      exact ih (acc ++ v) s h

/-- C8: every statement yielded by `get_statements` is non-empty and
carries no leading or trailing whitespace (it equals its own strip); and
when every chunk is empty or whitespace-only nothing is yielded — the
input `;;  ;` yields zero statements. -/
theorem get_statements_trimmed :
    (∀ (text s : List Char), s ∈ get_statements text → s = pyStrip s ∧ s ≠ []) ∧
    get_statements ";;  ;".data = [] :=
  ⟨fun _ s h => splitStatements_mem _ [] s h, by decide⟩

/-- Witness for C8: a concrete yielded statement, equal to its own strip
and non-empty. -/
theorem get_statements_trimmed_witness :
    "MATCH n".data = pyStrip "MATCH n".data ∧ "MATCH n".data ≠ [] :=
  get_statements_trimmed.1 " MATCH n ".data "MATCH n".data (by decide)

/-! ## C2: statement splitting on the two-statement example -/

/-- C2: the input `MATCH (n) RETURN n; MATCH (m) RETURN m;` splits into
exactly the two statements, in order, with no trailing empty statement
for the final terminator. -/
theorem get_statements_two :
    get_statements "MATCH (n) RETURN n; MATCH (m) RETURN m;".data =
      ["MATCH (n) RETURN n".data, "MATCH (m) RETURN m".data] := by decide

/-! ## C6: bracket-adjacency transitions -/

/-- C6: for `(a)-[:REL]->(b)` the full tagged trace — each token paired
with the state stack at its emission.  The tokens inside `(a)` are
emitted in the `in-()` state; the `)-[` span is one Punctuation token
emitted in `in-()` whose transition switches the stack directly to
`in-[]` (pop then push: the very next token is emitted in `in-[]`, with no
intermediate root-state token), and `]->(` is one Punctuation token
switching directly back to `in-()`. -/
theorem tokenize_bracket_adjacency :
    tokenize "(a)-[:REL]->(b)".data =
      [([SName.root], Tok.punctuation, "(".data),
       ([SName.inParen, SName.root], Tok.nameVariable, "a".data),
       ([SName.inParen, SName.root], Tok.punctuation, ")-[".data),
       ([SName.inBracket, SName.root], Tok.punctuation, ":".data),
       ([SName.inBracket, SName.root], Tok.nameLabel, "REL".data),
       ([SName.inBracket, SName.root], Tok.punctuation, "]->(".data),
       ([SName.inParen, SName.root], Tok.nameVariable, "b".data),
       ([SName.inParen, SName.root], Tok.punctuation, ")".data)] := by decide

/-! ## C7: no separator token outside the root state -/

/-- A simple rule whose token type is not Punctuation is semicolon-safe. -/
theorem ruleNoSemi_simple_nonpunct (re : RE) (t : Tok) (ops : List StackOp)
    (ht : t ≠ Tok.punctuation) : RuleNoSemi (Rule.simple re t ops) := by
  intro fuel inp prev toks rest p rops h t' v hm hcontra
  simp only [applyRule] at h
  obtain ⟨pre, rest1, p1, _, hk, _⟩ := matchF_some fuel re inp prev _ _ h
  simp only [Option.some.injEq, Prod.mk.injEq] at hk
  obtain ⟨h1, _, _, _⟩ := hk
  rw [← h1] at hm
  rw [List.mem_singleton] at hm
  cases hm
  exact ht hcontra.1

/-- A simple rule whose pattern begins with a character class rejecting
`;` is semicolon-safe: any span it emits starts with a non-semicolon. -/
theorem ruleNoSemi_simple_head (re : RE) (t : Tok) (ops : List StackOp)
    (q : Char → Bool) (hq : firstCharPred re = some q) (hs : q ';' = false) :
    RuleNoSemi (Rule.simple re t ops) := by
  intro fuel inp prev toks rest p rops h t' v hm hcontra
  simp only [applyRule] at h
  obtain ⟨pre, rest1, p1, hsplit, hk, hfc⟩ := matchF_some fuel re inp prev _ _ h
  have htake : inp.take (inp.length - rest1.length) = pre := by
    rw [hsplit]
    have hl : (pre ++ rest1).length - rest1.length = pre.length := by
      simp [List.length_append]
    rw [hl, List.take_left]
  rw [htake] at hk
  simp only [Option.some.injEq, Prod.mk.injEq] at hk
  obtain ⟨h1, _, _, _⟩ := hk
  rw [← h1] at hm
  rw [List.mem_singleton] at hm
  obtain ⟨c, tl, hpre, hqc⟩ := hfc q hq
  cases hm
  obtain ⟨_, hv⟩ := hcontra
  rw [hpre] at hv
  have : c = ';' ∧ tl = [] := by
    constructor
    · exact (List.cons.injEq .. ▸ hv).1
    · exact (List.cons.injEq .. ▸ hv).2
  rw [this.1] at hqc
  rw [hs] at hqc
  cases hqc

/-- Relate membership in a `bygroups` emission to the group list and the
per-span facts carried by `matchComps_some`. -/
theorem zipMemOfForall₂ {P : RE → List Char → Prop} :
    ∀ (comps : List (RE × Tok)) (spans : List (List Char)),
      List.Forall₂ P (comps.map Prod.fst) spans →
      ∀ (t : Tok) (v : List Char), (t, v) ∈ (comps.map Prod.snd).zip spans →
      ∃ re, (re, t) ∈ comps ∧ P re v := by
  intro comps
  induction comps with
  | nil => intro spans _ t v hm; simp at hm
  | cons ct cts ih =>
    obtain ⟨re0, t0⟩ := ct
    intro spans h t v hm
    cases spans with
    | nil => simp at hm
    | cons s ss =>
      simp only [List.map_cons] at h
      cases h with
      | cons hP hrest =>
        simp only [List.map_cons, List.zip_cons_cons, List.mem_cons] at hm
        rcases hm with heq | hm2
        · have h1 : t = t0 ∧ v = s := by
            constructor
            · exact (Prod.mk.injEq .. ▸ heq).1
            · exact (Prod.mk.injEq .. ▸ heq).2
          obtain ⟨rfl, rfl⟩ := h1
          exact ⟨re0, List.mem_cons_self _ _, hP⟩
        · obtain ⟨re, hre, hP2⟩ := ih ss hrest t v hm2
          exact ⟨re, List.mem_cons_of_mem _ hre, hP2⟩

/-- A `bygroups` rule is semicolon-safe when every group typed
Punctuation has a pattern whose head class rejects `;`. -/
theorem ruleNoSemi_grouped (comps : List (RE × Tok)) (ops : List StackOp)
    (hc : ∀ ct ∈ comps, ct.2 = Tok.punctuation →
      ∃ q, firstCharPred ct.1 = some q ∧ q ';' = false) :
    RuleNoSemi (Rule.grouped comps ops) := by
  intro fuel inp prev toks rest p rops h t v hm hcontra
  simp only [applyRule] at h
  obtain ⟨spans, rest1, p1, _, _, hk, hall⟩ :=
    matchComps_some (comps.map Prod.fst) fuel inp prev _ _ h
  simp only [Option.some.injEq, Prod.mk.injEq] at hk
  obtain ⟨h1, _, _, _⟩ := hk
  rw [← h1] at hm
  have hzip : (t, v) ∈ (comps.map Prod.snd).zip spans := List.mem_of_mem_filter hm
  obtain ⟨re, hre, hP⟩ := zipMemOfForall₂ comps spans hall t v hzip
  obtain ⟨q, hq, hqs⟩ := hc (re, t) hre hcontra.1
  obtain ⟨c, tl, hv, hqc⟩ := hP q hq
  rw [hcontra.2] at hv
  have hcs : ';' = c := (List.cons.injEq .. ▸ hv).1
  rw [← hcs] at hqc
  rw [hqs] at hqc
  cases hqc

/-- No rule built by `word_list` with a non-Punctuation type emits a
semicolon separator. -/
theorem noSemi_word_list (ws : List String) (t : Tok) (ht : t ≠ Tok.punctuation) :
    ∀ r ∈ word_list ws t, RuleNoSemi r := by
  intro r hr
  simp only [word_list, List.mem_map] at hr
  obtain ⟨w, _, rfl⟩ := hr
  exact ruleNoSemi_simple_nonpunct _ _ _ ht

theorem noSemi_symbol_list (ws : List String) (t : Tok) (ht : t ≠ Tok.punctuation) :
    ∀ r ∈ symbol_list ws t, RuleNoSemi r := by
  intro r hr
  simp only [symbol_list, List.mem_map] at hr
  obtain ⟨w, _, rfl⟩ := hr
  exact ruleNoSemi_simple_nonpunct _ _ _ ht

theorem noSemi_strings : ∀ r ∈ stringsRules, RuleNoSemi r := by
  intro r hr
  simp only [stringsRules, List.mem_cons, List.not_mem_nil, or_false] at hr
  rcases hr with rfl | rfl <;> exact ruleNoSemi_simple_nonpunct _ _ _ (by decide)

theorem noSemi_comments : ∀ r ∈ commentsRules, RuleNoSemi r := by
  intro r hr
  simp only [commentsRules, List.mem_cons, List.not_mem_nil, or_false] at hr
  rcases hr with rfl | rfl <;> exact ruleNoSemi_simple_nonpunct _ _ _ (by decide)

theorem noSemi_labels : ∀ r ∈ labelsRules, RuleNoSemi r := by
  intro r hr
  simp only [labelsRules, List.mem_cons, List.not_mem_nil, or_false] at hr
  rcases hr with rfl | rfl <;>
  · apply ruleNoSemi_grouped
    intro ct hct hpunct
    simp only [List.mem_cons, List.not_mem_nil, or_false] at hct
    rcases hct with rfl | rfl | rfl
    · exact ⟨_, rfl, by decide⟩
    · cases hpunct
    · cases hpunct

theorem noSemi_operators : ∀ r ∈ operatorsRules, RuleNoSemi r := by
  intro r hr
  simp only [operatorsRules, List.mem_append] at hr
  rcases hr with h | h
  · exact noSemi_word_list _ _ (by decide) r h
  · exact noSemi_symbol_list _ _ (by decide) r h

theorem noSemi_expressions : ∀ r ∈ expressionsRules, RuleNoSemi r := by
  intro r hr
  simp only [expressionsRules, proceduresRules, functionsRules, constantsRules,
    aliasesRules, variablesRules, parametersRules, numbersRules,
    List.mem_append, List.mem_cons, List.not_mem_nil, or_false, or_assoc] at hr
  rcases hr with rfl | rfl | h | rfl | rfl | rfl | rfl | rfl | rfl | rfl | rfl | rfl
  · -- procedures
    apply ruleNoSemi_grouped
    intro ct hct hpunct
    simp only [List.mem_cons, List.not_mem_nil, or_false] at hct
    rcases hct with rfl | rfl | rfl <;> cases hpunct
  · -- functions
    apply ruleNoSemi_grouped
    intro ct hct hpunct
    simp only [List.mem_cons, List.not_mem_nil, or_false] at hct
    rcases hct with rfl | rfl | rfl
    · cases hpunct
    · cases hpunct
    · exact ⟨_, rfl, by decide⟩
  · -- constants
    exact noSemi_word_list _ _ (by decide) r h
  · -- aliases (backquoted)
    apply ruleNoSemi_grouped
    intro ct hct hpunct
    simp only [List.mem_cons, List.not_mem_nil, or_false] at hct
    rcases hct with rfl | rfl | rfl <;> cases hpunct
  · -- aliases (plain)
    apply ruleNoSemi_grouped
    intro ct hct hpunct
    simp only [List.mem_cons, List.not_mem_nil, or_false] at hct
    rcases hct with rfl | rfl | rfl <;> cases hpunct
  · exact ruleNoSemi_simple_nonpunct _ _ _ (by decide)
  · exact ruleNoSemi_simple_nonpunct _ _ _ (by decide)
  · -- parameters (backquoted)
    apply ruleNoSemi_grouped
    intro ct hct hpunct
    simp only [List.mem_cons, List.not_mem_nil, or_false] at hct
    rcases hct with rfl | rfl
    · exact ⟨_, rfl, by decide⟩
    · cases hpunct
  · -- parameters (plain)
    apply ruleNoSemi_grouped
    intro ct hct hpunct
    simp only [List.mem_cons, List.not_mem_nil, or_false] at hct
    rcases hct with rfl | rfl
    · exact ⟨_, rfl, by decide⟩
    · cases hpunct
  · exact ruleNoSemi_simple_nonpunct _ _ _ (by decide)
  · exact ruleNoSemi_simple_nonpunct _ _ _ (by decide)
  · exact ruleNoSemi_simple_nonpunct _ _ _ (by decide)

theorem noSemi_whitespace : ∀ r ∈ whitespaceRules, RuleNoSemi r := by
  intro r hr
  simp only [whitespaceRules, List.mem_cons, List.not_mem_nil, or_false] at hr
  rcases hr with rfl
  exact ruleNoSemi_simple_nonpunct _ _ _ (by decide)

/-- Every rule of every non-root state is semicolon-safe. -/
theorem noSemi_state (s : SName) (hs : s ≠ SName.root) :
    ∀ r ∈ tokens s, RuleNoSemi r := by
  cases s with
  | root => exact absurd rfl hs
  | inParen =>
    intro r hr
    simp only [tokens, inParenRules, List.mem_append, List.mem_cons,
      List.not_mem_nil, or_false, or_assoc] at hr
    rcases hr with h | h | h | rfl | h | h | h | h | rfl | rfl | rfl | rfl | rfl | rfl
    · exact noSemi_strings r h
    · exact noSemi_comments r h
    · exact noSemi_word_list _ _ (by decide) r h
    · exact ruleNoSemi_simple_head _ _ _ _ rfl (by decide)
    · exact noSemi_labels r h
    · exact noSemi_operators r h
    · exact noSemi_expressions r h
    · exact noSemi_whitespace r h
    · exact ruleNoSemi_simple_head _ _ _ _ rfl (by decide)
    · exact ruleNoSemi_simple_head _ _ _ _ rfl (by decide)
    · exact ruleNoSemi_simple_head _ _ _ _ rfl (by decide)
    · exact ruleNoSemi_simple_head _ _ _ _ rfl (by decide)
    · exact ruleNoSemi_simple_head _ _ _ _ rfl (by decide)
    · exact ruleNoSemi_simple_head _ _ _ _ rfl (by decide)
  | inBracket =>
    intro r hr
    simp only [tokens, inBracketRules, List.mem_append, List.mem_cons,
      List.not_mem_nil, or_false, or_assoc] at hr
    rcases hr with h | h | rfl | rfl | h | h | h | h | rfl | rfl | rfl | rfl | rfl
    · exact noSemi_strings r h
    · exact noSemi_comments r h
    · exact ruleNoSemi_simple_nonpunct _ _ _ (by decide)
    · exact ruleNoSemi_simple_head _ _ _ _ rfl (by decide)
    · exact noSemi_labels r h
    · exact noSemi_operators r h
    · exact noSemi_expressions r h
    · exact noSemi_whitespace r h
    · exact ruleNoSemi_simple_head _ _ _ _ rfl (by decide)
    · exact ruleNoSemi_simple_head _ _ _ _ rfl (by decide)
    · exact ruleNoSemi_simple_head _ _ _ _ rfl (by decide)
    · exact ruleNoSemi_simple_head _ _ _ _ rfl (by decide)
    · exact ruleNoSemi_simple_head _ _ _ _ rfl (by decide)
  | inBrace =>
    intro r hr
    simp only [tokens, inBraceRules, List.mem_append, List.mem_cons,
      List.not_mem_nil, or_false, or_assoc] at hr
    rcases hr with h | h | rfl | h | h | h | rfl | rfl | rfl | rfl
    · exact noSemi_strings r h
    · exact noSemi_comments r h
    · exact ruleNoSemi_simple_head _ _ _ _ rfl (by decide)
    · exact noSemi_operators r h
    · exact noSemi_expressions r h
    · exact noSemi_whitespace r h
    · exact ruleNoSemi_simple_head _ _ _ _ rfl (by decide)
    · exact ruleNoSemi_simple_head _ _ _ _ rfl (by decide)
    · exact ruleNoSemi_simple_head _ _ _ _ rfl (by decide)
    · exact ruleNoSemi_simple_head _ _ _ _ rfl (by decide)
  | mlComment =>
    intro r hr
    simp only [tokens, mlCommentRules, List.mem_cons, List.not_mem_nil, or_false] at hr
    rcases hr with rfl | rfl | rfl | rfl <;>
      exact ruleNoSemi_simple_nonpunct _ _ _ (by decide)

/-- Semicolon-safety of a rule scan. -/
theorem scanRules_noSemi :
    ∀ (rules : List Rule), (∀ r ∈ rules, RuleNoSemi r) →
    ∀ (fuel : Nat) (inp : List Char) (prev : Option Char) toks rest p ops,
      scanRules fuel rules inp prev = some (toks, rest, p, ops) →
      ∀ t v, (t, v) ∈ toks → ¬(t = Tok.punctuation ∧ v = [';']) := by
  intro rules
  induction rules with
  | nil => intro _ fuel inp prev toks rest p ops h; simp [scanRules] at h
  | cons r rs ih =>
    intro hall fuel inp prev toks rest p ops h
    simp only [scanRules] at h
    cases ha : applyRule fuel r inp prev with
    | some res =>
      rw [ha] at h
      cases h
      exact hall r (List.mem_cons_self _ _) fuel inp prev _ _ _ _ ha
    | none =>
      rw [ha] at h
      exact ih (fun r2 h2 => hall r2 (List.mem_cons_of_mem _ h2)) fuel inp prev toks rest p ops h

/-- C7: a semicolon inside a parenthesis, bracket or brace context is
never a statement boundary — no rule of any non-root state ever emits a
`(Punctuation, ";")` token, on any input; and a semicolon inside a quoted
string is not a boundary: `RETURN "a;b"` is one statement, not split at
the internal semicolon. -/
theorem semicolon_opacity :
    (∀ (s : SName) (fuel : Nat) (inp : List Char) (prev : Option Char) toks rest p ops,
      s ≠ SName.root →
      scanRules fuel (tokens s) inp prev = some (toks, rest, p, ops) →
      ∀ t v, (t, v) ∈ toks → ¬(t = Tok.punctuation ∧ v = [';'])) ∧
    get_statements "RETURN \"a;b\"".data = ["RETURN \"a;b\"".data] := by
  constructor
  · intro s fuel inp prev toks rest p ops hs hscan
    exact scanRules_noSemi (tokens s) (noSemi_state s hs) fuel inp prev toks rest p ops hscan
  · decide

/-- Witness for C7: scanning `'a;b'` in the `in-()` state produces a
String token for the whole literal; the theorem applied at this concrete
scan shows it is not a separator token. -/
theorem semicolon_opacity_witness :
    ¬(Tok.str = Tok.punctuation ∧ "'a;b'".data = [';']) :=
  semicolon_opacity.1 SName.inParen (mFuel "'a;b'".data) "'a;b'".data none
    [(Tok.str, "'a;b'".data)] [] (some '\'') [] (by decide) (by decide)
    Tok.str "'a;b'".data (by decide)

/-! ## C3: the compiled order of prefix-related literals -/

/-- C3 counterexample: `ASC` is a strict prefix of `ASCENDING`, yet in the
compiled keyword rule order (`word_list` sorts the pattern strings in
descending order) the rule for `ASC` comes *before* the rule for
`ASCENDING` — the claim "the longer literal's rule is placed before its
shorter prefix's rule" is false for this pair, because the appended `\b`
pattern text starts with a backslash (0x5C), which sorts above every
uppercase letter. -/
theorem word_list_order_counterexample :
    isStrictPref "ASC".data "ASCENDING".data = true ∧
    ¬ idxOf "ASCENDING" (sortDescBy wordPattern cypher_keywords) <
        idxOf "ASC" (sortDescBy wordPattern cypher_keywords) := by decide

/-- C3 amended: in each word table, a strict-prefix pair whose longer
literal diverges with a space (multi-word extension, e.g. `CREATE UNIQUE`
over `CREATE`) has the longer rule first; every other strict-prefix pair
(e.g. `ASC`/`ASCENDING`, `AS`/`ASSERT`, `DESC`/`DESCENDING`,
`END`/`ENDS WITH`) has the *shorter* rule first.  In the operator symbol
table the longer literal (e.g. `<=` over `<`) always comes first. -/
theorem word_list_order_amended :
    prefOrderCheck cypher_keywords = true ∧
    prefOrderCheck cypher_pseudo_keywords = true ∧
    prefOrderCheck cypher_operator_words = true ∧
    symPrefOrderCheck cypher_operator_symbols = true := by
  refine ⟨by decide, by decide, by decide, by decide⟩

/-! ## C5: word boundaries prevent prefix matches and shadowing -/

/-- C5: (a) no literal of any word table is ever shadowed by a shorter
literal placed earlier in its compiled order: each literal ending in a
word character (every literal except `>>`, which no identifier can
extend), followed by a separator, is matched as one whole keyword
(resp. operator) token; the same holds for every operator symbol; (b) the
compiled rule of such a literal never matches it as a proper prefix of a
longer identifier (the appended `\b` fails before a word character); and
the spec's concrete instances: `ASCENDING` tokenizes as the single
Keyword token `ASCENDING`, and `CREATED` tokenizes as a Name token, not
as a Keyword `CREATE` plus a remainder. -/
theorem keyword_no_shadow :
    (kwSelfCheck cypher_keywords Tok.keyword = true ∧
     kwSelfCheck cypher_pseudo_keywords Tok.keyword = true ∧
     kwSelfCheck cypher_operator_words Tok.operator = true ∧
     symSelfCheck cypher_operator_symbols Tok.operator = true) ∧
    (kwNoPrefCheck cypher_keywords Tok.keyword = true ∧
     kwNoPrefCheck cypher_pseudo_keywords Tok.keyword = true ∧
     kwNoPrefCheck cypher_operator_words Tok.operator = true) ∧
    tokenize "ASCENDING".data = [([SName.root], Tok.keyword, "ASCENDING".data)] ∧
    tokenize "CREATED".data = [([SName.root], Tok.nameVariable, "CREATED".data)] := by
  exact ⟨⟨by decide, by decide, by decide, by decide⟩,
         ⟨by decide, by decide, by decide⟩, by decide, by decide⟩

/-! ## Success and failure lemmas for concrete patterns -/

theorem caseEqChar_self (c : Char) : caseEqChar c c = true := by
  simp [caseEqChar]

theorem caseStartsWith_self (s rest : List Char) : caseStartsWith s (s ++ rest) = true := by
  induction s with
  | nil => simp [caseStartsWith]
  | cons c cs ih => simp [caseStartsWith, caseEqChar_self, ih]

theorem litRE_cons (c : Char) (cs : List Char) :
    litRE (c :: cs) = RE.seq (RE.pred (fun x => caseEqChar c x)) (litRE cs) := rfl

theorem litRE_nil : litRE [] = RE.eps := rfl

/-- A literal pattern consumes exactly its own length when the input
starts with a case variant of it. -/
theorem litRE_match {α : Type} :
    ∀ (s inp : List Char) (prev : Option Char) (k : List Char → Option Char → Option α)
      (fuel : Nat), caseStartsWith s inp = true → 2 * s.length + 1 ≤ fuel →
      matchF fuel (litRE s) inp prev k
        = k (inp.drop s.length) (lastPrev (inp.take s.length) prev) := by
  intro s
  induction s with
  | nil =>
    intro inp prev k fuel _ hf
    obtain ⟨n, rfl⟩ : ∃ n, fuel = n + 1 := ⟨fuel - 1, by omega⟩
    simp [litRE, matchF, lastPrev]
  | cons c cs ih =>
    intro inp prev k fuel hs hf
    cases inp with
    | nil => simp [caseStartsWith] at hs
    | cons x xs =>
      simp only [caseStartsWith, Bool.and_eq_true] at hs
      simp only [List.length_cons] at hf
      obtain ⟨n, rfl⟩ : ∃ n, fuel = n + 1 := ⟨fuel - 1, by omega⟩
      obtain ⟨m, rfl⟩ : ∃ m, n = m + 1 := ⟨n - 1, by omega⟩
      rw [litRE_cons]
      simp only [matchF, hs.1, if_true]
      rw [ih xs (some x) k (m + 1) hs.2 (by omega)]
      simp [lastPrev]

/-- A literal pattern fails whenever the input does not start with a case
variant of it (at any fuel). -/
theorem litRE_fail {α : Type} :
    ∀ (s inp : List Char) (prev : Option Char) (k : List Char → Option Char → Option α)
      (fuel : Nat), caseStartsWith s inp = false →
      matchF fuel (litRE s) inp prev k = none := by
  intro s
  induction s with
  | nil => intro inp prev k fuel h; simp [caseStartsWith] at h
  | cons c cs ih =>
    intro inp prev k fuel h
    cases fuel with
    | zero => simp [matchF]
    | succ n =>
      rw [litRE_cons]
      simp only [matchF]
      cases n with
      | zero => simp [matchF]
      | succ m =>
        cases inp with
        | nil => simp [matchF]
        | cons x xs =>
          simp only [matchF]
          simp only [caseStartsWith, Bool.and_eq_false_iff] at h
          by_cases hcx : caseEqChar c x = true
          · rw [if_pos hcx]
            apply ih
            rcases h with h1 | h2
            · rw [hcx] at h1; cases h1
            · exact h2
          · rw [if_neg hcx]

/-- A sequence whose head is a character class fails on a character
outside the class. -/
theorem seqPredFail {α : Type} (p : Char → Bool) (b : RE) (c : Char) (tl : List Char)
    (prev : Option Char) (k : List Char → Option Char → Option α) (fuel : Nat)
    (hc : p c = false) : matchF fuel (RE.seq (RE.pred p) b) (c :: tl) prev k = none := by
  cases fuel with
  | zero => simp [matchF]
  | succ n =>
    cases n with
    | zero => simp [matchF]
    | succ m => simp [matchF, hc]

/-- A sequence fails when its first component fails for every
continuation and every fuel. -/
theorem seqFailLeft {α : Type} (a b : RE) (inp : List Char) (prev : Option Char)
    (h : ∀ (fuel : Nat) (k : List Char → Option Char → Option α),
      matchF fuel a inp prev k = none) :
    ∀ (fuel : Nat) (k : List Char → Option Char → Option α),
      matchF fuel (RE.seq a b) inp prev k = none := by
  intro fuel k
  cases fuel with
  | zero => simp [matchF]
  | succ n =>
    simp only [matchF]
    exact h n _

/-- A word rule fails whenever the input does not start with a case
variant of the word's first literal part. -/
theorem wordRE_fail (w : String) (inp : List Char) (prev : Option Char)
    (h : caseStartsWith (firstPart w) inp = false) :
    ∀ (fuel : Nat)
      (k : List Char → Option Char →
        Option (List (Tok × List Char) × List Char × Option Char × List StackOp)),
      matchF fuel (wordRE w) inp prev k = none := by
  unfold wordRE
  unfold firstPart at h
  cases hp : splitChar ' ' w.data with
  | nil =>
    rw [hp] at h
    simp [caseStartsWith] at h
  | cons p ps =>
    rw [hp] at h
    simp only [List.headD_cons] at h
    cases ps with
    | nil =>
      simp only [wordCore]
      exact seqFailLeft _ _ _ _ (fun fuel k => litRE_fail p inp prev k fuel h)
    | cons p2 ps2 =>
      simp only [wordCore]
      exact seqFailLeft _ _ _ _
        (seqFailLeft _ _ _ _ (fun fuel k => litRE_fail p inp prev k fuel h))

/-- The failing form of `applyRule` for a simple rule. -/
theorem applyRule_simple_fail (re : RE) (t : Tok) (ops : List StackOp)
    (inp : List Char) (prev : Option Char) (fuel : Nat)
    (h : ∀ (k : List Char → Option Char →
        Option (List (Tok × List Char) × List Char × Option Char × List StackOp)),
      matchF fuel re inp prev k = none) :
    applyRule fuel (Rule.simple re t ops) inp prev = none := by
  simp only [applyRule]
  exact h _

/-- Greedy star over a character class: consumes a maximal run and hands
the rest to the continuation (when the continuation then succeeds). -/
theorem starPred_match {α : Type} (p : Char → Bool) :
    ∀ (ws rest : List Char) (prev : Option Char)
      (k : List Char → Option Char → Option α) (v : α) (fuel : Nat),
      (∀ c ∈ ws, p c = true) →
      (∀ c cs, rest = c :: cs → p c = false) →
      k rest (lastPrev ws prev) = some v →
      2 * ws.length + 2 ≤ fuel →
      matchF fuel (RE.star (RE.pred p)) (ws ++ rest) prev k = some v := by
  intro ws
  induction ws with
  | nil =>
    intro rest prev k v fuel _ hrest hk hf
    obtain ⟨n, rfl⟩ : ∃ n, fuel = n + 1 := ⟨fuel - 1, by omega⟩
    obtain ⟨m, rfl⟩ : ∃ m, n = m + 1 := ⟨n - 1, by omega⟩
    simp only [List.nil_append, matchF]
    cases rest with
    | nil => simpa [matchF, lastPrev] using hk
    | cons c cs =>
      have hc : p c = false := hrest c cs rfl
      simpa [matchF, hc, lastPrev] using hk
  | cons w ws' ih =>
    intro rest prev k v fuel hws hrest hk hf
    obtain ⟨n, rfl⟩ : ∃ n, fuel = n + 1 := ⟨fuel - 1, by omega⟩
    obtain ⟨m, rfl⟩ : ∃ m, n = m + 1 := ⟨n - 1, by omega⟩
    have hw : p w = true := hws w (List.mem_cons_self _ _)
    have hrec : matchF (m + 1) (RE.star (RE.pred p)) (ws' ++ rest) (some w) k = some v := by
      apply ih rest (some w) k v (m + 1)
        (fun c hc => hws c (List.mem_cons_of_mem _ hc)) hrest
      · simpa [lastPrev] using hk
      · simp only [List.length_cons] at hf; omega
    have hlen : (ws' ++ rest).length < (w :: (ws' ++ rest)).length := by simp
    have hinner : matchF (m + 1) (RE.pred p) (w :: (ws' ++ rest)) prev
        (fun r q => if r.length < (w :: (ws' ++ rest)).length
          then matchF (m + 1) (RE.star (RE.pred p)) r q k else none) = some v := by
      have e2 : matchF (m + 1) (RE.pred p) (w :: (ws' ++ rest)) prev
          (fun r q => if r.length < (w :: (ws' ++ rest)).length
            then matchF (m + 1) (RE.star (RE.pred p)) r q k else none)
          = if p w then (if (ws' ++ rest).length < (w :: (ws' ++ rest)).length
              then matchF (m + 1) (RE.star (RE.pred p)) (ws' ++ rest) (some w) k
              else none)
            else none := rfl
      rw [e2]
      simp [hw, hlen, hrec]
    have e1 : matchF (m + 1 + 1) (RE.star (RE.pred p)) (w :: (ws' ++ rest)) prev k
        = match matchF (m + 1) (RE.pred p) (w :: (ws' ++ rest)) prev
            (fun r q => if r.length < (w :: (ws' ++ rest)).length
              then matchF (m + 1) (RE.star (RE.pred p)) r q k else none) with
          | some v2 => some v2
          | none => k (w :: (ws' ++ rest)) prev := rfl
    rw [List.cons_append, e1, hinner]

/-! ## Scan manipulation lemmas -/

theorem scan_cons_some (fuel : Nat) (r : Rule) (rs : List Rule) (inp : List Char)
    (prev : Option Char) (res : List (Tok × List Char) × List Char × Option Char × List StackOp)
    (h : applyRule fuel r inp prev = some res) :
    scanRules fuel (r :: rs) inp prev = some res := by
  simp [scanRules, h]

theorem scan_all_none (fuel : Nat) (inp : List Char) (prev : Option Char) :
    ∀ (rs : List Rule), (∀ r ∈ rs, applyRule fuel r inp prev = none) →
      scanRules fuel rs inp prev = none := by
  intro rs
  induction rs with
  | nil => intro _; simp [scanRules]
  | cons r rs2 ih =>
    intro h
    simp only [scanRules, h r (List.mem_cons_self _ _)]
    exact ih (fun r2 h2 => h r2 (List.mem_cons_of_mem _ h2))

theorem scan_append_none (fuel : Nat) (inp : List Char) (prev : Option Char)
    (as bs : List Rule) (h : scanRules fuel as inp prev = none) :
    scanRules fuel (as ++ bs) inp prev = scanRules fuel bs inp prev := by
  induction as with
  | nil => simp
  | cons a as2 ih =>
    simp only [scanRules, List.cons_append] at h ⊢
    cases ha : applyRule fuel a inp prev with
    | some res => rw [ha] at h; cases h
    | none =>
      rw [ha] at h
      exact ih h

/-! ## C10: the single-line comment rule swallows a whole `//` line -/

/-- The tail of the comment pattern: `.*\n` consumes exactly up to and
including the next newline. -/
theorem dotStarNl {α : Type} (u2 rest2 : List Char) (p2 : Option Char)
    (k2 : List Char → Option Char → Option α) (v : α) (fuel : Nat)
    (hu : ∀ c ∈ u2, (c != '\n') = true)
    (hk : k2 rest2 (some '\n') = some v)
    (hf : 2 * u2.length + 4 ≤ fuel) :
    matchF fuel (RE.seq (RE.star dotRE) nlRE) (u2 ++ '\n' :: rest2) p2 k2 = some v := by
  obtain ⟨n, rfl⟩ : ∃ n, fuel = n + 1 := ⟨fuel - 1, by omega⟩
  have e1 : matchF (n + 1) (RE.seq (RE.star dotRE) nlRE) (u2 ++ '\n' :: rest2) p2 k2
      = matchF n (RE.star dotRE) (u2 ++ '\n' :: rest2) p2
          (fun r q => matchF n nlRE r q k2) := rfl
  rw [e1]
  apply starPred_match (fun c => c != '\n') u2 ('\n' :: rest2) p2 _ v n hu
  · intro c cs hc
    cases hc
    decide
  · obtain ⟨m, rfl⟩ : ∃ m, n = m + 1 := ⟨n - 1, by omega⟩
    have e2 : matchF (m + 1) nlRE ('\n' :: rest2) (lastPrev u2 p2) k2
        = if ('\n' == '\n') then k2 rest2 (some '\n') else none := rfl
    rw [e2]
    simpa using hk
  · omega

/-- Negative search: when the line has no adjacent `//`, the comment
pattern's leading `.*` never finds a continuation point that satisfies
the `//` literal, so the whole match fails. -/
theorem starDotNoDSlash {α : Type} :
    ∀ (u : List Char) (rest : List Char) (q0 : Option Char) (nK : Nat)
      (k1 : List Char → Option Char → Option α) (fuel : Nat),
      hasDSlash u = false →
      (∀ c ∈ u, (c != '\n') = true) →
      matchF fuel (RE.star dotRE) (u ++ '\n' :: rest) q0
        (fun r q => matchF nK
          (RE.seq (litRE ['/', '/']) (RE.seq (RE.star dotRE) nlRE)) r q k1)
        = none := by
  intro u
  induction u with
  | nil =>
    intro rest q0 nK k1 fuel _ _
    have hcsw0 : caseStartsWith ['/', '/'] ('\n' :: rest) = false := by
      simp [caseStartsWith, show caseEqChar '/' '\n' = false from by decide]
    have hKfail : ∀ (fl : Nat) (k : List Char → Option Char → Option α),
        matchF fl (RE.seq (litRE ['/', '/']) (RE.seq (RE.star dotRE) nlRE))
          ('\n' :: rest) q0 k = none :=
      seqFailLeft _ _ _ _ (fun fl k => litRE_fail _ _ _ _ _ hcsw0)
    cases fuel with
    | zero => rfl
    | succ n =>
      have e1 : matchF (n + 1) (RE.star dotRE) ([] ++ '\n' :: rest) q0
          (fun r q => matchF nK
            (RE.seq (litRE ['/', '/']) (RE.seq (RE.star dotRE) nlRE)) r q k1)
          = match matchF n dotRE ('\n' :: rest) q0
              (fun r q => if r.length < ('\n' :: rest).length
                then matchF n (RE.star dotRE) r q
                  (fun r2 q2 => matchF nK
                    (RE.seq (litRE ['/', '/']) (RE.seq (RE.star dotRE) nlRE)) r2 q2 k1)
                else none) with
            | some v2 => some v2
            | none => matchF nK
                (RE.seq (litRE ['/', '/']) (RE.seq (RE.star dotRE) nlRE))
                ('\n' :: rest) q0 k1 := rfl
      rw [e1]
      have hinner : matchF n dotRE ('\n' :: rest) q0
          (fun r q => if r.length < ('\n' :: rest).length
            then matchF n (RE.star dotRE) r q
              (fun r2 q2 => matchF nK
                (RE.seq (litRE ['/', '/']) (RE.seq (RE.star dotRE) nlRE)) r2 q2 k1)
            else none) = none := by
        cases n with
        | zero => rfl
        | succ m => simp [dotRE, matchF]
      rw [hinner, hKfail]
  | cons c u' ih =>
    intro rest q0 nK k1 fuel hds hnl
    -- the continuation fails on the full input: no `//` at its front
    have hcswf : caseStartsWith ['/', '/'] (c :: (u' ++ '\n' :: rest)) = false := by
      cases u' with
      | nil =>
        simp only [caseStartsWith, List.nil_append]
        by_cases hc : caseEqChar '/' c = true
        · simp [hc]; decide
        · simp [Bool.eq_false_iff.mpr hc]
      | cons c2 u'' =>
        simp only [hasDSlash, Bool.or_eq_false_iff, Bool.and_eq_false_iff] at hds
        simp only [caseStartsWith, List.cons_append]
        rcases hds.1 with h1 | h2
        · simp [h1]
        · simp [h2]
    have hKfail : matchF nK
        (RE.seq (litRE ['/', '/']) (RE.seq (RE.star dotRE) nlRE))
        (c :: (u' ++ '\n' :: rest)) q0 k1 = none :=
      seqFailLeft _ _ _ _ (fun fl k => litRE_fail _ _ _ _ _ hcswf) nK k1
    cases fuel with
    | zero => rfl
    | succ n =>
      have hds' : hasDSlash u' = false := by
        cases u' with
        | nil => rfl
        | cons c2 u'' =>
          simp only [hasDSlash, Bool.or_eq_false_iff] at hds
          exact hds.2
      have e1 : matchF (n + 1) (RE.star dotRE) ((c :: u') ++ '\n' :: rest) q0
          (fun r q => matchF nK
            (RE.seq (litRE ['/', '/']) (RE.seq (RE.star dotRE) nlRE)) r q k1)
          = match matchF n dotRE (c :: (u' ++ '\n' :: rest)) q0
              (fun r q => if r.length < (c :: (u' ++ '\n' :: rest)).length
                then matchF n (RE.star dotRE) r q
                  (fun r2 q2 => matchF nK
                    (RE.seq (litRE ['/', '/']) (RE.seq (RE.star dotRE) nlRE)) r2 q2 k1)
                else none) with
            | some v2 => some v2
            | none => matchF nK
                (RE.seq (litRE ['/', '/']) (RE.seq (RE.star dotRE) nlRE))
                (c :: (u' ++ '\n' :: rest)) q0 k1 := rfl
      rw [e1]
      have hinner : matchF n dotRE (c :: (u' ++ '\n' :: rest)) q0
          (fun r q => if r.length < (c :: (u' ++ '\n' :: rest)).length
            then matchF n (RE.star dotRE) r q
              (fun r2 q2 => matchF nK
                (RE.seq (litRE ['/', '/']) (RE.seq (RE.star dotRE) nlRE)) r2 q2 k1)
            else none) = none := by
        cases n with
        | zero => rfl
        | succ m =>
          have hc : (c != '\n') = true := hnl c (List.mem_cons_self _ _)
          have e2 : matchF (m + 1) dotRE (c :: (u' ++ '\n' :: rest)) q0
              (fun r q => if r.length < (c :: (u' ++ '\n' :: rest)).length
                then matchF (m + 1) (RE.star dotRE) r q
                  (fun r2 q2 => matchF nK
                    (RE.seq (litRE ['/', '/']) (RE.seq (RE.star dotRE) nlRE)) r2 q2 k1)
                else none)
              = if (c != '\n')
                then (if (u' ++ '\n' :: rest).length < (c :: (u' ++ '\n' :: rest)).length
                  then matchF (m + 1) (RE.star dotRE) (u' ++ '\n' :: rest) (some c)
                    (fun r2 q2 => matchF nK
                      (RE.seq (litRE ['/', '/']) (RE.seq (RE.star dotRE) nlRE)) r2 q2 k1)
                  else none)
                else none := rfl
          rw [e2]
          have hrec := ih rest (some c) nK k1 (m + 1) hds'
            (fun c2 h2 => hnl c2 (List.mem_cons_of_mem _ h2))
          simp [hc, hrec]
      rw [hinner, hKfail]

/-- Positive search: when the line does contain `//`, the comment
pattern's greedy `.*` backtracks to a `//`, and the whole pattern then
consumes through the terminating newline, handing `rest` to the final
continuation. -/
theorem starDotSearch {α : Type} :
    ∀ (u : List Char) (rest : List Char) (q0 : Option Char) (nK : Nat)
      (k1 : List Char → Option Char → Option α) (v : α) (fuel : Nat),
      hasDSlash u = true →
      (∀ c ∈ u, (c != '\n') = true) →
      k1 rest (some '\n') = some v →
      2 * u.length + 2 ≤ fuel →
      2 * u.length + 8 ≤ nK →
      matchF fuel (RE.star dotRE) (u ++ '\n' :: rest) q0
        (fun r q => matchF nK
          (RE.seq (litRE ['/', '/']) (RE.seq (RE.star dotRE) nlRE)) r q k1)
        = some v := by
  intro u
  induction u with
  | nil => intro rest q0 nK k1 v fuel hds; cases hds
  | cons c u' ih =>
    intro rest q0 nK k1 v fuel hds hnl hk hf hnK
    obtain ⟨n, rfl⟩ : ∃ n, fuel = n + 1 := ⟨fuel - 1, by omega⟩
    simp only [List.length_cons] at hf hnK
    have hc : (c != '\n') = true := hnl c (List.mem_cons_self _ _)
    have e1 : matchF (n + 1) (RE.star dotRE) ((c :: u') ++ '\n' :: rest) q0
        (fun r q => matchF nK
          (RE.seq (litRE ['/', '/']) (RE.seq (RE.star dotRE) nlRE)) r q k1)
        = match matchF n dotRE (c :: (u' ++ '\n' :: rest)) q0
            (fun r q => if r.length < (c :: (u' ++ '\n' :: rest)).length
              then matchF n (RE.star dotRE) r q
                (fun r2 q2 => matchF nK
                  (RE.seq (litRE ['/', '/']) (RE.seq (RE.star dotRE) nlRE)) r2 q2 k1)
              else none) with
          | some v2 => some v2
          | none => matchF nK
              (RE.seq (litRE ['/', '/']) (RE.seq (RE.star dotRE) nlRE))
              (c :: (u' ++ '\n' :: rest)) q0 k1 := rfl
    rw [e1]
    obtain ⟨m, rfl⟩ : ∃ m, n = m + 1 := ⟨n - 1, by omega⟩
    have e2 : matchF (m + 1) dotRE (c :: (u' ++ '\n' :: rest)) q0
        (fun r q => if r.length < (c :: (u' ++ '\n' :: rest)).length
          then matchF (m + 1) (RE.star dotRE) r q
            (fun r2 q2 => matchF nK
              (RE.seq (litRE ['/', '/']) (RE.seq (RE.star dotRE) nlRE)) r2 q2 k1)
          else none)
        = if (c != '\n')
          then (if (u' ++ '\n' :: rest).length < (c :: (u' ++ '\n' :: rest)).length
            then matchF (m + 1) (RE.star dotRE) (u' ++ '\n' :: rest) (some c)
              (fun r2 q2 => matchF nK
                (RE.seq (litRE ['/', '/']) (RE.seq (RE.star dotRE) nlRE)) r2 q2 k1)
            else none)
          else none := rfl
    by_cases hds' : hasDSlash u' = true
    · -- the pair is found further right: recurse
      have hrec := ih rest (some c) nK k1 v (m + 1) hds'
        (fun c2 h2 => hnl c2 (List.mem_cons_of_mem _ h2)) hk (by omega) (by omega)
      rw [e2]
      simp [hc, hrec]
    · -- the pair is right here: the deeper search fails and the
      -- continuation matches `//` at this offset
      have hdsf : hasDSlash u' = false := Bool.eq_false_iff.mpr hds'
      obtain ⟨c2, u'', rfl⟩ : ∃ c2 u'', u' = c2 :: u'' := by
        cases u' with
        | nil => cases hds
        | cons c2 u'' => exact ⟨c2, u'', rfl⟩
      have hpair : (caseEqChar '/' c && caseEqChar '/' c2) = true := by
        simp only [hasDSlash] at hds
        rcases Bool.or_eq_true_iff.mp hds with h | h
        · exact h
        · rw [h] at hdsf; cases hdsf
      simp only [List.length_cons] at hnK hf
      have hfail := starDotNoDSlash (c2 :: u'') rest (some c) nK k1 (m + 1) hdsf
        (fun c3 h3 => hnl c3 (List.mem_cons_of_mem _ h3))
      rw [List.cons_append] at hfail
      rw [e2]
      have hKsucc : matchF nK
          (RE.seq (litRE ['/', '/']) (RE.seq (RE.star dotRE) nlRE))
          (c :: ((c2 :: u'') ++ '\n' :: rest)) q0 k1 = some v := by
        obtain ⟨mK, rfl⟩ : ∃ mK, nK = mK + 1 := ⟨nK - 1, by omega⟩
        have e3 : matchF (mK + 1)
            (RE.seq (litRE ['/', '/']) (RE.seq (RE.star dotRE) nlRE))
            (c :: ((c2 :: u'') ++ '\n' :: rest)) q0 k1
            = matchF mK (litRE ['/', '/']) (c :: ((c2 :: u'') ++ '\n' :: rest)) q0
                (fun r q => matchF mK (RE.seq (RE.star dotRE) nlRE) r q k1) := rfl
        rw [e3]
        have hcsw : caseStartsWith ['/', '/'] (c :: ((c2 :: u'') ++ '\n' :: rest)) = true := by
          simp only [Bool.and_eq_true] at hpair
          simp [caseStartsWith, List.cons_append, hpair.1, hpair.2]
        rw [litRE_match ['/', '/'] _ q0 _ mK hcsw
          (by simp only [List.length_cons, List.length_nil]; omega)]
        have hdrop : (c :: ((c2 :: u'') ++ '\n' :: rest)).drop (['/', '/'] : List Char).length
            = u'' ++ '\n' :: rest := by simp
        have htake : lastPrev ((c :: ((c2 :: u'') ++ '\n' :: rest)).take
            (['/', '/'] : List Char).length) q0 = some c2 := by
          simp [lastPrev]
        rw [hdrop, htake]
        exact dotStarNl u'' rest (some c2) k1 v mK
          (fun c3 h3 => hnl c3 (List.mem_cons_of_mem _ (List.mem_cons_of_mem _ h3)))
          hk (by omega)
      rw [List.cons_append] at hKsucc
      simp [hc, hfail, hKsucc]

/-- The comment rule applied to a full line `line ++ "\n"` at line start:
one single `Comment.Single` token covering the entire line including its
terminating newline, whenever the line contains `//`. -/
theorem commentLine_rule (line rest : List Char) (prev : Option Char)
    (hd : hasDSlash line = true)
    (hn : ∀ c ∈ line, (c != '\n') = true)
    (hb : bolHolds prev = true) :
    applyRule (mFuel (line ++ '\n' :: rest)) (Rule.simple commentLineRE Tok.commentSingle [])
        (line ++ '\n' :: rest) prev
      = some ([(Tok.commentSingle, line ++ ['\n'])], rest, some '\n', []) := by
  simp only [applyRule]
  have hassoc : line ++ '\n' :: rest = (line ++ ['\n']) ++ rest := by simp
  have htake : (line ++ '\n' :: rest).take ((line ++ '\n' :: rest).length - rest.length)
      = line ++ ['\n'] := by
    rw [hassoc]
    have hl : ((line ++ ['\n']) ++ rest).length - rest.length = (line ++ ['\n']).length := by
      simp only [List.length_append, List.length_cons, List.length_nil]
      omega
    rw [hl, List.take_left]
  obtain ⟨n, hn1⟩ : ∃ n, mFuel (line ++ '\n' :: rest) = n + 1 :=
    ⟨mFuel (line ++ '\n' :: rest) - 1, by simp only [mFuel]; omega⟩
  rw [hn1]
  have e1 : matchF (n + 1) commentLineRE (line ++ '\n' :: rest) prev
      (fun r p => some ([(Tok.commentSingle,
        (line ++ '\n' :: rest).take ((line ++ '\n' :: rest).length - r.length))], r, p, ([] : List StackOp)))
      = matchF n RE.bol (line ++ '\n' :: rest) prev
          (fun r p => matchF n
            (RE.seq (RE.star dotRE)
              (RE.seq (litRE ['/', '/']) (RE.seq (RE.star dotRE) nlRE)))
            r p
            (fun r2 p2 => some ([(Tok.commentSingle,
              (line ++ '\n' :: rest).take ((line ++ '\n' :: rest).length - r2.length))],
              r2, p2, ([] : List StackOp)))) := rfl
  rw [e1]
  have hfuel : 2 * line.length + 16 ≤ n := by
    have hlen : (line ++ '\n' :: rest).length = line.length + rest.length + 1 := by
      simp only [List.length_append, List.length_cons]
      omega
    simp only [mFuel, hlen] at hn1
    omega
  obtain ⟨m, rfl⟩ : ∃ m, n = m + 1 := ⟨n - 1, by omega⟩
  have e2 : matchF (m + 1) RE.bol (line ++ '\n' :: rest) prev
      (fun r p => matchF (m + 1)
        (RE.seq (RE.star dotRE)
          (RE.seq (litRE ['/', '/']) (RE.seq (RE.star dotRE) nlRE)))
        r p
        (fun r2 p2 => some ([(Tok.commentSingle,
          (line ++ '\n' :: rest).take ((line ++ '\n' :: rest).length - r2.length))],
          r2, p2, ([] : List StackOp))))
      = if bolHolds prev
        then matchF (m + 1)
          (RE.seq (RE.star dotRE)
            (RE.seq (litRE ['/', '/']) (RE.seq (RE.star dotRE) nlRE)))
          (line ++ '\n' :: rest) prev
          (fun r2 p2 => some ([(Tok.commentSingle,
            (line ++ '\n' :: rest).take ((line ++ '\n' :: rest).length - r2.length))],
            r2, p2, ([] : List StackOp)))
        else none := rfl
  rw [e2, if_pos (by simp [hb])]
  obtain ⟨m2, rfl⟩ : ∃ m2, m = m2 + 1 := ⟨m - 1, by omega⟩
  have e3 : matchF (m2 + 1 + 1)
      (RE.seq (RE.star dotRE)
        (RE.seq (litRE ['/', '/']) (RE.seq (RE.star dotRE) nlRE)))
      (line ++ '\n' :: rest) prev
      (fun r2 p2 => some ([(Tok.commentSingle,
        (line ++ '\n' :: rest).take ((line ++ '\n' :: rest).length - r2.length))],
        r2, p2, ([] : List StackOp)))
      = matchF (m2 + 1) (RE.star dotRE) (line ++ '\n' :: rest) prev
          (fun r q => matchF (m2 + 1)
            (RE.seq (litRE ['/', '/']) (RE.seq (RE.star dotRE) nlRE)) r q
            (fun r2 p2 => some ([(Tok.commentSingle,
              (line ++ '\n' :: rest).take ((line ++ '\n' :: rest).length - r2.length))],
              r2, p2, ([] : List StackOp)))) := rfl
  rw [e3]
  apply starDotSearch line rest prev (m2 + 1) _ _ (m2 + 1) hd hn
  · rw [htake]
  · simp only [List.length_cons] at hfuel ⊢; omega
  · simp only [List.length_cons] at hfuel ⊢; omega

/-- C10: whenever the offset is at a line start and the line contains
`//` and is terminated by a newline, the comment rule matches the entire
line — query text before the `//` included — as one single
`Comment.Single` token (general part, for every such line and every
remaining input); on the concrete input `RETURN 1 // note\n` the full
tokenizer emits exactly one `Comment.Single` token covering the whole
line, and a semicolon on such a line is not seen as a separator by the
splitter: `RETURN 1 // no;te\n` stays one statement. -/
theorem comment_line_swallows :
    (∀ (line rest : List Char) (prev : Option Char),
      hasDSlash line = true →
      (∀ c ∈ line, (c != '\n') = true) →
      bolHolds prev = true →
      applyRule (mFuel (line ++ '\n' :: rest))
          (Rule.simple commentLineRE Tok.commentSingle []) (line ++ '\n' :: rest) prev
        = some ([(Tok.commentSingle, line ++ ['\n'])], rest, some '\n', [])) ∧
    tokenize "RETURN 1 // note\n".data
      = [([SName.root], Tok.commentSingle, "RETURN 1 // note\n".data)] ∧
    get_statements "RETURN 1 // no;te\n".data = ["RETURN 1 // no;te".data] :=
  ⟨commentLine_rule, by decide, by decide⟩

/-- Witness for C10: the comment rule applied to the concrete line
`RETURN 1 // note` followed by a newline. -/
theorem comment_line_swallows_witness :
    applyRule (mFuel ("RETURN 1 // note".data ++ '\n' :: []))
        (Rule.simple commentLineRE Tok.commentSingle [])
        ("RETURN 1 // note".data ++ '\n' :: []) none
      = some ([(Tok.commentSingle, "RETURN 1 // note".data ++ ['\n'])], [], some '\n', []) :=
  comment_line_swallows.1 "RETURN 1 // note".data [] none (by decide) (by decide) (by decide)

/-! ## C4: a multi-word keyword matches across any internal whitespace run -/

/-- A two-part word rule (`LIT1\s+LIT2\b`) succeeds across any non-empty
run of whitespace between its two literal parts, consuming exactly
`p1 ++ ws ++ p2`. -/
theorem wordRE2_match {α : Type} (p1 p2 ws rest : List Char) (prev : Option Char)
    (k : List Char → Option Char → Option α) (v : α) (fuel : Nat)
    (hne : ws ≠ []) (hsp : ∀ c ∈ ws, isPySpace c = true)
    (hp2ne : p2 ≠ []) (hp2 : ∀ c cs, p2 = c :: cs → isPySpace c = false)
    (hwb : wbHolds (lastPrev p2 (lastPrev ws (lastPrev p1 prev))) rest = true)
    (hk : k rest (lastPrev p2 (lastPrev ws (lastPrev p1 prev))) = some v)
    (hfuel : 2 * p1.length + 2 * ws.length + 2 * p2.length + 16 ≤ fuel) :
    matchF fuel
      (RE.seq (RE.seq (litRE p1) (RE.seq (plusRE (RE.pred isPySpace)) (litRE p2))) RE.wb)
      (p1 ++ (ws ++ (p2 ++ rest))) prev k = some v := by
  obtain ⟨n, rfl⟩ : ∃ n, fuel = n + 1 := ⟨fuel - 1, by omega⟩
  have e1 : matchF (n + 1)
      (RE.seq (RE.seq (litRE p1) (RE.seq (plusRE (RE.pred isPySpace)) (litRE p2))) RE.wb)
      (p1 ++ (ws ++ (p2 ++ rest))) prev k
      = matchF n (RE.seq (litRE p1) (RE.seq (plusRE (RE.pred isPySpace)) (litRE p2)))
          (p1 ++ (ws ++ (p2 ++ rest))) prev
          (fun r q => matchF n RE.wb r q k) := rfl
  rw [e1]
  obtain ⟨n2, rfl⟩ : ∃ n2, n = n2 + 1 := ⟨n - 1, by omega⟩
  have e2 : matchF (n2 + 1) (RE.seq (litRE p1) (RE.seq (plusRE (RE.pred isPySpace)) (litRE p2)))
      (p1 ++ (ws ++ (p2 ++ rest))) prev (fun r q => matchF (n2 + 1) RE.wb r q k)
      = matchF n2 (litRE p1) (p1 ++ (ws ++ (p2 ++ rest))) prev
          (fun r q => matchF n2 (RE.seq (plusRE (RE.pred isPySpace)) (litRE p2)) r q
            (fun r2 q2 => matchF (n2 + 1) RE.wb r2 q2 k)) := rfl
  rw [e2]
  rw [litRE_match p1 _ prev _ n2 (caseStartsWith_self _ _) (by omega)]
  rw [List.drop_left, List.take_left]
  obtain ⟨n3, rfl⟩ : ∃ n3, n2 = n3 + 1 := ⟨n2 - 1, by omega⟩
  have e3 : matchF (n3 + 1) (RE.seq (plusRE (RE.pred isPySpace)) (litRE p2))
      (ws ++ (p2 ++ rest)) (lastPrev p1 prev)
      (fun r2 q2 => matchF (n3 + 1 + 1) RE.wb r2 q2 k)
      = matchF n3 (plusRE (RE.pred isPySpace)) (ws ++ (p2 ++ rest)) (lastPrev p1 prev)
          (fun r q => matchF n3 (litRE p2) r q
            (fun r2 q2 => matchF (n3 + 1 + 1) RE.wb r2 q2 k)) := rfl
  rw [e3]
  obtain ⟨n4, rfl⟩ : ∃ n4, n3 = n4 + 1 := ⟨n3 - 1, by omega⟩
  cases ws with
  | nil => exact absurd rfl hne
  | cons w0 ws1 =>
    simp only [List.length_cons] at hfuel
    have e4 : matchF (n4 + 1) (plusRE (RE.pred isPySpace))
        ((w0 :: ws1) ++ (p2 ++ rest)) (lastPrev p1 prev)
        (fun r q => matchF (n4 + 1) (litRE p2) r q
          (fun r2 q2 => matchF (n4 + 1 + 1 + 1) RE.wb r2 q2 k))
        = matchF n4 (RE.pred isPySpace) ((w0 :: ws1) ++ (p2 ++ rest)) (lastPrev p1 prev)
            (fun r q => matchF n4 (RE.star (RE.pred isPySpace)) r q
              (fun r3 q3 => matchF (n4 + 1) (litRE p2) r3 q3
                (fun r2 q2 => matchF (n4 + 1 + 1 + 1) RE.wb r2 q2 k))) := rfl
    rw [e4]
    obtain ⟨n5, rfl⟩ : ∃ n5, n4 = n5 + 1 := ⟨n4 - 1, by omega⟩
    have hw0 : isPySpace w0 = true := hsp w0 (List.mem_cons_self _ _)
    rw [List.cons_append]
    have e5 : matchF (n5 + 1) (RE.pred isPySpace) (w0 :: (ws1 ++ (p2 ++ rest))) (lastPrev p1 prev)
        (fun r q => matchF (n5 + 1) (RE.star (RE.pred isPySpace)) r q
          (fun r3 q3 => matchF (n5 + 1 + 1) (litRE p2) r3 q3
            (fun r2 q2 => matchF (n5 + 1 + 1 + 1 + 1) RE.wb r2 q2 k)))
        = if isPySpace w0
          then matchF (n5 + 1) (RE.star (RE.pred isPySpace)) (ws1 ++ (p2 ++ rest)) (some w0)
            (fun r3 q3 => matchF (n5 + 1 + 1) (litRE p2) r3 q3
              (fun r2 q2 => matchF (n5 + 1 + 1 + 1 + 1) RE.wb r2 q2 k))
          else none := rfl
    rw [e5, if_pos (by simp [hw0])]
    apply starPred_match isPySpace ws1 (p2 ++ rest) (some w0) _ v (n5 + 1)
      (fun c hc => hsp c (List.mem_cons_of_mem _ hc))
    · intro c cs hc
      cases p2 with
      | nil => exact absurd rfl hp2ne
      | cons a p2' =>
        rw [List.cons_append] at hc
        injection hc with h1 h2
        rw [← h1]
        exact hp2 a p2' rfl
    · -- the continuation after the whitespace run: LIT2 then \b then k
      rw [litRE_match p2 _ _ _ (n5 + 1 + 1) (caseStartsWith_self _ _) (by omega)]
      rw [List.drop_left, List.take_left]
      have e6 : matchF (n5 + 1 + 1 + 1 + 1) RE.wb rest (lastPrev p2 (lastPrev ws1 (some w0))) k
          = if wbHolds (lastPrev p2 (lastPrev ws1 (some w0))) rest
            then k rest (lastPrev p2 (lastPrev ws1 (some w0))) else none := rfl
      rw [e6, if_pos (show wbHolds (lastPrev p2 (lastPrev ws1 (some w0))) rest = true from hwb)]
      exact hk
    · omega

/-- A case-insensitive prefix test through an append: if `s` starts the
extended input, its first `|pre|` characters start `pre`. -/
theorem cswTakeOfAppend :
    ∀ (pre s tail : List Char), caseStartsWith s (pre ++ tail) = true →
      caseStartsWith (s.take pre.length) pre = true := by
  intro pre
  induction pre with
  | nil => intro s tail _; simp [caseStartsWith]
  | cons c pre' ih =>
    intro s tail h
    cases s with
    | nil => simp [caseStartsWith]
    | cons a s' =>
      simp only [List.cons_append, caseStartsWith, Bool.and_eq_true] at h
      simp only [List.length_cons, List.take_succ_cons, caseStartsWith, Bool.and_eq_true]
      exact ⟨h.1, ih s' tail h.2⟩

/-- Whitespace characters are not (case variants of) a slash. -/
theorem isPySpace_not_slash (c : Char) (h : isPySpace c = true) :
    caseEqChar '/' c = false := by
  simp only [isPySpace, Bool.or_eq_true, beq_iff_eq, or_assoc] at h
  rcases h with rfl | rfl | rfl | rfl | rfl | rfl <;> decide

/-- The single-line comment rule cannot match any input that contains no
slash at all. -/
theorem noSlash_comment {α : Type} (inp : List Char) (prev : Option Char)
    (hns : ∀ c ∈ inp, caseEqChar '/' c = false) :
    ∀ (fuel : Nat) (k : List Char → Option Char → Option α),
      matchF fuel commentLineRE inp prev k = none := by
  intro fuel k
  cases hm : matchF fuel commentLineRE inp prev k with
  | none => rfl
  | some v =>
    exfalso
    cases fuel with
    | zero => simp [matchF] at hm
    | succ n =>
      have e1 : matchF (n + 1) commentLineRE inp prev k
          = matchF n RE.bol inp prev
              (fun r q => matchF n
                (RE.seq (RE.star dotRE)
                  (RE.seq (litRE ['/', '/']) (RE.seq (RE.star dotRE) nlRE))) r q k) := rfl
      rw [e1] at hm
      cases n with
      | zero => simp [matchF] at hm
      | succ m =>
        have e2 : matchF (m + 1) RE.bol inp prev
            (fun r q => matchF (m + 1)
              (RE.seq (RE.star dotRE)
                (RE.seq (litRE ['/', '/']) (RE.seq (RE.star dotRE) nlRE))) r q k)
            = if bolHolds prev
              then matchF (m + 1)
                (RE.seq (RE.star dotRE)
                  (RE.seq (litRE ['/', '/']) (RE.seq (RE.star dotRE) nlRE))) inp prev k
              else none := rfl
        rw [e2] at hm
        by_cases hb : bolHolds prev = true
        · rw [if_pos hb] at hm
          cases m with
          | zero => simp [matchF] at hm
          | succ m2 =>
            have e3 : matchF (m2 + 1 + 1)
                (RE.seq (RE.star dotRE)
                  (RE.seq (litRE ['/', '/']) (RE.seq (RE.star dotRE) nlRE))) inp prev k
                = matchF (m2 + 1) (RE.star dotRE) inp prev
                    (fun r q => matchF (m2 + 1)
                      (RE.seq (litRE ['/', '/']) (RE.seq (RE.star dotRE) nlRE)) r q k) := rfl
            rw [e3] at hm
            obtain ⟨pre, rest1, p1, hsplit, hk1, _⟩ := matchF_some _ _ _ _ _ _ hm
            obtain ⟨pre2, rest2, p2, hsplit2, _, hfc⟩ := matchF_some _ _ _ _ _ _ hk1
            obtain ⟨c, tl, hpre2, hqc⟩ := hfc (fun x => caseEqChar '/' x) rfl
            have hcmem : c ∈ inp := by
              rw [hsplit, hsplit2, hpre2]
              simp
            rw [hns c hcmem] at hqc
            cases hqc
        · rw [if_neg hb] at hm
          cases hm

/-- The compiled rule for `CREATE UNIQUE` matches `CREATE`, any
non-empty whitespace run, then `UNIQUE` at a word boundary, as one
single keyword span. -/
theorem createUnique_rule_match (ws : List Char) (hne : ws ≠ [])
    (hsp : ∀ c ∈ ws, isPySpace c = true) :
    applyRule (mFuel ("CREATE".data ++ ws ++ "UNIQUE (n)".data))
        (Rule.simple (wordRE "CREATE UNIQUE") Tok.keyword [])
        ("CREATE".data ++ ws ++ "UNIQUE (n)".data) none
      = some ([(Tok.keyword, "CREATE".data ++ ws ++ "UNIQUE".data)],
              " (n)".data, some 'E', []) := by
  simp only [applyRule]
  have hw : wordRE "CREATE UNIQUE"
      = RE.seq (RE.seq (litRE "CREATE".data)
          (RE.seq (plusRE (RE.pred isPySpace)) (litRE "UNIQUE".data))) RE.wb := rfl
  rw [hw]
  have hassoc : "CREATE".data ++ ws ++ "UNIQUE (n)".data
      = "CREATE".data ++ (ws ++ ("UNIQUE".data ++ " (n)".data)) := by
    have hsplit : ("UNIQUE (n)".data : List Char) = "UNIQUE".data ++ " (n)".data := rfl
    rw [hsplit, List.append_assoc]
  rw [hassoc]
  have h6 : ("CREATE".data : List Char).length = 6 := rfl
  have h6b : ("UNIQUE".data : List Char).length = 6 := rfl
  have h4 : (" (n)".data : List Char).length = 4 := rfl
  apply wordRE2_match "CREATE".data "UNIQUE".data ws (" (n)".data) none _ _ _
    hne hsp (by decide)
  · intro c cs h
    injection h with h1 h2
    rw [← h1]
    decide
  · rfl
  · -- the continuation of the rule: one keyword token over the
    -- consumed span, which is the whole input minus the 4-char rest
    simp only []
    have htake2 : ("CREATE".data ++ (ws ++ ("UNIQUE".data ++ " (n)".data))).take
        (("CREATE".data ++ (ws ++ ("UNIQUE".data ++ " (n)".data))).length
          - (" (n)".data : List Char).length)
        = "CREATE".data ++ ws ++ "UNIQUE".data := by
      have hre : "CREATE".data ++ (ws ++ ("UNIQUE".data ++ " (n)".data))
          = ("CREATE".data ++ ws ++ "UNIQUE".data) ++ " (n)".data := by
        simp [List.append_assoc]
      rw [hre]
      have hl : (("CREATE".data ++ ws ++ "UNIQUE".data) ++ " (n)".data).length
          - (" (n)".data : List Char).length
          = ("CREATE".data ++ ws ++ "UNIQUE".data).length := by
        simp only [List.length_append]
        omega
      rw [hl, List.take_left]
    rw [htake2]
    rfl
  · simp only [mFuel, List.length_append, h6, h6b, h4]
    have h10 : ("UNIQUE (n)".data : List Char).length = 10 := rfl
    omega

theorem scan_append_some (fuel : Nat) (inp : List Char) (prev : Option Char)
    (as bs : List Rule)
    (res : List (Tok × List Char) × List Char × Option Char × List StackOp)
    (h : scanRules fuel as inp prev = some res) :
    scanRules fuel (as ++ bs) inp prev = some res := by
  induction as with
  | nil => simp [scanRules] at h
  | cons a as2 ih =>
    simp only [scanRules, List.cons_append] at h ⊢
    cases ha : applyRule fuel a inp prev with
    | some res2 => rw [ha] at h; exact h
    | none =>
      rw [ha] at h
      exact ih h

/-- Scanning the whole root state on `CREATE``ws```UNIQUE (n)` finds the
`CREATE UNIQUE` keyword rule: the string and comment rules fail, every
keyword rule placed before `CREATE UNIQUE` in the compiled descending
order fails on the first literal part, and the `CREATE UNIQUE` rule
matches across the whitespace run. -/
theorem createUnique_scan (ws : List Char) (hne : ws ≠ [])
    (hsp : ∀ c ∈ ws, isPySpace c = true) :
    scanRules (mFuel ("CREATE".data ++ ws ++ "UNIQUE (n)".data)) rootRules
        ("CREATE".data ++ ws ++ "UNIQUE (n)".data) none
      = some ([(Tok.keyword, "CREATE".data ++ ws ++ "UNIQUE".data)],
              " (n)".data, some 'E', []) := by
  have hinpc : "CREATE".data ++ ws ++ "UNIQUE (n)".data
      = 'C' :: ("REATE".data ++ ws ++ "UNIQUE (n)".data) := by
    have hC : ("CREATE".data : List Char) = 'C' :: "REATE".data := rfl
    rw [hC, List.cons_append, List.cons_append]
  have hns : ∀ c ∈ "CREATE".data ++ ws ++ "UNIQUE (n)".data, caseEqChar '/' c = false := by
    intro c hc
    simp only [List.mem_append] at hc
    rcases hc with (hc | hc) | hc
    · have hA : ∀ c ∈ ("CREATE".data : List Char), caseEqChar '/' c = false := by decide
      exact hA c hc
    · exact isPySpace_not_slash c (hsp c hc)
    · have hB : ∀ c ∈ ("UNIQUE (n)".data : List Char), caseEqChar '/' c = false := by decide
      exact hB c hc
  have hstr : scanRules (mFuel ("CREATE".data ++ ws ++ "UNIQUE (n)".data)) stringsRules
      ("CREATE".data ++ ws ++ "UNIQUE (n)".data) none = none := by
    apply scan_all_none
    intro r hr
    simp only [stringsRules, List.mem_cons, List.not_mem_nil, or_false] at hr
    rcases hr with rfl | rfl <;>
    · apply applyRule_simple_fail
      intro k
      simp only [stringRE]
      rw [hinpc]
      exact seqPredFail _ _ _ _ _ _ _ (by decide)
  have hcom : scanRules (mFuel ("CREATE".data ++ ws ++ "UNIQUE (n)".data)) commentsRules
      ("CREATE".data ++ ws ++ "UNIQUE (n)".data) none = none := by
    apply scan_all_none
    intro r hr
    simp only [commentsRules, List.mem_cons, List.not_mem_nil, or_false] at hr
    rcases hr with rfl | rfl
    · apply applyRule_simple_fail
      intro k
      exact noSlash_comment _ none hns _ k
    · apply applyRule_simple_fail
      intro k
      apply litRE_fail
      rw [hinpc]
      simp [caseStartsWith, show caseEqChar '/' 'C' = false from by decide]
  have hsplit : sortDescBy wordPattern cypher_keywords
      = (sortDescBy wordPattern cypher_keywords).take 52
        ++ "CREATE UNIQUE" :: (sortDescBy wordPattern cypher_keywords).drop 53 := by decide
  have hbulk : ∀ w ∈ (sortDescBy wordPattern cypher_keywords).take 52,
      caseStartsWith ((firstPart w).take 6) "CREATE".data = false := by decide
  have hpre : scanRules (mFuel ("CREATE".data ++ ws ++ "UNIQUE (n)".data))
      (((sortDescBy wordPattern cypher_keywords).take 52).map
        (fun w => Rule.simple (wordRE w) Tok.keyword []))
      ("CREATE".data ++ ws ++ "UNIQUE (n)".data) none = none := by
    apply scan_all_none
    intro r hr
    rw [List.mem_map] at hr
    obtain ⟨w, hw, rfl⟩ := hr
    apply applyRule_simple_fail
    intro k
    apply wordRE_fail
    rw [List.append_assoc]
    cases hcsw : caseStartsWith (firstPart w)
        ("CREATE".data ++ (ws ++ "UNIQUE (n)".data)) with
    | false => rfl
    | true =>
      exfalso
      have htk := cswTakeOfAppend "CREATE".data (firstPart w) _ hcsw
      rw [show (("CREATE".data : List Char)).length = 6 from rfl] at htk
      rw [hbulk w hw] at htk
      cases htk
  have hkw : scanRules (mFuel ("CREATE".data ++ ws ++ "UNIQUE (n)".data)) keywordsRules
      ("CREATE".data ++ ws ++ "UNIQUE (n)".data) none
      = some ([(Tok.keyword, "CREATE".data ++ ws ++ "UNIQUE".data)],
              " (n)".data, some 'E', []) := by
    have hkwlist : keywordsRules
        = (((sortDescBy wordPattern cypher_keywords).take 52).map
            (fun w => Rule.simple (wordRE w) Tok.keyword []))
          ++ (Rule.simple (wordRE "CREATE UNIQUE") Tok.keyword []
              :: ((sortDescBy wordPattern cypher_keywords).drop 53).map
                (fun w => Rule.simple (wordRE w) Tok.keyword [])) := by
      have h0 : keywordsRules = (sortDescBy wordPattern cypher_keywords).map
          (fun w => Rule.simple (wordRE w) Tok.keyword []) := rfl
      rw [h0]
      conv_lhs => rw [hsplit]
      simp [List.map_append]
    rw [hkwlist]
    rw [scan_append_none _ _ _ _ _ hpre]
    exact scan_cons_some _ _ _ _ _ _ (createUnique_rule_match ws hne hsp)
  have hra : rootRules = stringsRules ++ (commentsRules ++ (keywordsRules ++
      (pseudoKeywordsRules ++
        ([Rule.simple (RE.pred (fun c => c == ',' || c == ';')) Tok.punctuation []] ++
          (labelsRules ++ (operatorsRules ++ (expressionsRules ++ (whitespaceRules ++
            [Rule.simple (litRE ['(']) Tok.punctuation [StackOp.push SName.inParen],
             Rule.simple (litRE ['[']) Tok.punctuation [StackOp.push SName.inBracket],
             Rule.simple (litRE ['\x7b']) Tok.punctuation [StackOp.push SName.inBrace]])))))))) := by
    simp [rootRules, List.append_assoc]
  rw [hra]
  rw [scan_append_none _ _ _ _ _ hstr, scan_append_none _ _ _ _ _ hcom]
  exact scan_append_some _ _ _ _ _ _ hkw

/-- C4: for the input `CREATE UNIQUE (n)` the tokenizer emits
`CREATE UNIQUE` as one single Keyword token — the full trace is
Keyword/Whitespace/Punctuation/Name.Variable/Punctuation, with no
separate `UNIQUE` token — and for any non-empty run of whitespace
characters between the two words, the first emitted token of
`CREATE` ++ run ++ `UNIQUE (n)` is a single Keyword token spanning
`CREATE` ++ run ++ `UNIQUE`. -/
theorem create_unique_keyword :
    (tokenize "CREATE UNIQUE (n)".data
      = [([SName.root], Tok.keyword, "CREATE UNIQUE".data),
         ([SName.root], Tok.whitespace, " ".data),
         ([SName.root], Tok.punctuation, "(".data),
         ([SName.inParen, SName.root], Tok.nameVariable, "n".data),
         ([SName.inParen, SName.root], Tok.punctuation, ")".data)])
    ∧ (∀ ws : List Char, ws ≠ [] → (∀ c ∈ ws, isPySpace c = true) →
        (tokenize ("CREATE".data ++ ws ++ "UNIQUE (n)".data)).head?
          = some ([SName.root], Tok.keyword,
                  "CREATE".data ++ ws ++ "UNIQUE".data)) := by
  constructor
  · decide
  · intro ws hne hsp
    have hinpc : "CREATE".data ++ ws ++ "UNIQUE (n)".data
        = 'C' :: ("REATE".data ++ ws ++ "UNIQUE (n)".data) := by
      have hC : ("CREATE".data : List Char) = 'C' :: "REATE".data := rfl
      rw [hC, List.cons_append, List.cons_append]
    have hscan := createUnique_scan ws hne hsp
    rw [hinpc] at hscan
    have hscan2 : scanRules (mFuel ('C' :: ("REATE".data ++ ws ++ "UNIQUE (n)".data)))
        (tokens (topState [SName.root]))
        ('C' :: ("REATE".data ++ ws ++ "UNIQUE (n)".data)) none
        = some ([(Tok.keyword, "CREATE".data ++ ws ++ "UNIQUE".data)],
                " (n)".data, some 'E', []) := hscan
    have hstep : tokenize ("CREATE".data ++ ws ++ "UNIQUE (n)".data)
        = lexRun (("REATE".data ++ ws ++ "UNIQUE (n)".data).length + 1) [SName.root] none
            ('C' :: ("REATE".data ++ ws ++ "UNIQUE (n)".data)) := by
      simp only [tokenize, hinpc, List.length_cons]
    rw [hstep]
    simp only [lexRun, hscan2]
    rw [if_pos (by
      simp only [List.length_append,
        show ("REATE".data : List Char).length = 5 from rfl,
        show ("UNIQUE (n)".data : List Char).length = 10 from rfl,
        show ((" (n)".data : List Char)).length = 4 from rfl]
      omega)]
    simp only [List.map_cons, List.map_nil, List.cons_append, List.head?_cons]

theorem create_unique_keyword_witness :
    ([' ', '\t'] : List Char) ≠ []
    ∧ (∀ c ∈ ([' ', '\t'] : List Char), isPySpace c = true)
    ∧ (tokenize ("CREATE".data ++ [' ', '\t'] ++ "UNIQUE (n)".data)).head?
        = some ([SName.root], Tok.keyword,
                "CREATE".data ++ [' ', '\t'] ++ "UNIQUE".data) :=
  ⟨by decide, by decide, create_unique_keyword.2 [' ', '\t'] (by decide) (by decide)⟩

end CypherLex
